import Mathlib

/-!
Verification development for the CPU-Scheduling-Simulator repository.

The Python source (`process.py`, `scheduler.py`) is embedded shallowly:

* `Proc` mirrors `Process` (process.py).  The mutable timing fields are
  carried in the record; `waiting_time`/`turnaround_time` are `Int` so that
  the metric identities are genuine statements and not `Nat`-truncation
  artifacts.
* `Scheduler` mirrors the `Scheduler` class (scheduler.py).  Python holds
  object references; processes are identified here by their `pid` (the
  simulator creates processes with globally unique pids), so the ready
  queue and the CPU occupant slot hold pids.  `completed_count` is the
  `completed_processes_count` local of the run loops, carried in the state.
* The two run loops are embedded with explicit fuel
  (`fcfsLoop` / `rrLoop` return `none` when the fuel is exhausted, i.e. the
  Python loop would still be running); `run_fcfs` / `run_round_robin`
  instantiate the fuel with a bound computed from the registered set.
-/

structure Proc where
  pid : Nat
  arrival_time : Nat
  burst_time : Nat
  remaining_burst_time : Nat
  start_time : Option Nat
  completion_time : Option Nat
  waiting_time : Int
  turnaround_time : Int
  response_time : Option Int
deriving DecidableEq

/-- `Process.__init__` (process.py lines 24-43) with an explicitly supplied
pid (the Python class draws it from the global `next_pid` counter). -/
def mkProcess (pid arrival burst : Nat) : Proc :=
  { pid := pid, arrival_time := arrival, burst_time := burst,
    remaining_burst_time := burst, start_time := none, completion_time := none,
    waiting_time := 0, turnaround_time := 0, response_time := none }

/-- `Process.calculate_metrics` (process.py lines 45-57): a no-op unless both
completion time and start time are set. -/
def calculate_metrics (p : Proc) : Proc :=
  match p.completion_time, p.start_time with
  | some c, some _ =>
      let ta : Int := (c : Int) - (p.arrival_time : Int)
      { p with turnaround_time := ta, waiting_time := ta - (p.burst_time : Int) }
  | _, _ => p

structure Scheduler where
  ready_queue : List Nat
  all_processes : List Proc
  current_time : Nat
  cpu_idle_time : Nat
  current_running_process : Option Nat
  gantt_chart : List (Nat × Nat × Nat)
  completed_count : Nat
deriving DecidableEq

/-- `Scheduler.__init__` (scheduler.py lines 12-22). -/
def initScheduler : Scheduler :=
  { ready_queue := [], all_processes := [], current_time := 0,
    cpu_idle_time := 0, current_running_process := none, gantt_chart := [],
    completed_count := 0 }

def pidLe (a b : Proc) : Prop := a.pid ≤ b.pid

instance : DecidableRel pidLe := fun a b => Nat.decLe a.pid b.pid

instance : IsTotal Proc pidLe := ⟨fun a b => Nat.le_total a.pid b.pid⟩

instance : IsTrans Proc pidLe := ⟨fun _ _ _ h h' => Nat.le_trans h h'⟩

def arrivalLe (a b : Proc) : Prop := a.arrival_time ≤ b.arrival_time

instance : DecidableRel arrivalLe := fun a b => Nat.decLe a.arrival_time b.arrival_time

/-- Python's stable `list.sort(key=lambda p: p.pid)`. -/
def sortByPid (l : List Proc) : List Proc := l.insertionSort pidLe

/-- Python's stable `list.sort(key=lambda p: p.arrival_time)`. -/
def sortByArrival (l : List Proc) : List Proc := l.insertionSort arrivalLe

/-- `Scheduler.add_process` (scheduler.py lines 26-34): append, then keep the
set sorted by arrival time. -/
def add_process (s : Scheduler) (p : Proc) : Scheduler :=
  { s with all_processes := sortByArrival (s.all_processes ++ [p]) }

/-- Reading a process record through its pid (Python reads the object
directly; pids are unique for processes created by the simulator). -/
def lookupProc (s : Scheduler) (pid : Nat) : Option Proc :=
  s.all_processes.find? (fun p => p.pid == pid)

/-- In-place mutation of the process object with the given pid. -/
def updateProc (s : Scheduler) (pid : Nat) (f : Proc → Proc) : Scheduler :=
  { s with all_processes :=
      s.all_processes.map (fun p => if p.pid == pid then f p else p) }

/-- The admission condition of `_add_arriving_processes_to_ready_queue`
(scheduler.py line 45): arrived, still needs CPU, not already queued, not
the current occupant. -/
def arrivalCheck (s : Scheduler) (p : Proc) : Bool :=
  decide (p.arrival_time ≤ s.current_time) &&
  decide (0 < p.remaining_burst_time) &&
  !(s.ready_queue.contains p.pid) &&
  !(s.current_running_process == some p.pid)

/-- `Scheduler._add_arriving_processes_to_ready_queue` (scheduler.py lines
36-53): collect admissible processes, sort them by pid, append to the
ready queue. -/
def addArrivals (s : Scheduler) : Scheduler :=
  let newly_arrived := s.all_processes.filter (arrivalCheck s)
  { s with ready_queue := s.ready_queue ++ (sortByPid newly_arrived).map (·.pid) }

/-- Assigning the CPU to the pid popped from the head of the ready queue
(scheduler.py lines 85-91 / 152-158): occupy the slot and, if this is the
first dispatch, set start time and response time. -/
def dispatchAssign (pid : Nat) (rest : List Nat) (s : Scheduler) : Scheduler :=
  let s' := { s with current_running_process := some pid, ready_queue := rest }
  match lookupProc s' pid with
  | some p =>
      if p.start_time = none then
        updateProc s' pid (fun q =>
          { q with start_time := some s'.current_time,
                   response_time := some ((s'.current_time : Int) - (q.arrival_time : Int)) })
      else s'
  | none => s'

/-- The dispatch block shared by both run methods (scheduler.py lines
84-91 and 151-158): if the CPU is free and the ready queue is non-empty,
pop the head. -/
def dispatchStep (s : Scheduler) : Scheduler :=
  match s.current_running_process, s.ready_queue with
  | none, pid :: rest => dispatchAssign pid rest s
  | _, _ => s

/-- One execution tick of the occupant (scheduler.py lines 95-99 /
165-168): decrement its remaining burst, advance the clock, append the
trace interval. -/
def tickExec (pid : Nat) (s : Scheduler) : Scheduler :=
  let s1 := updateProc s pid
    (fun p => { p with remaining_burst_time := p.remaining_burst_time - 1 })
  let s2 := { s1 with current_time := s1.current_time + 1 }
  { s2 with gantt_chart :=
    s2.gantt_chart ++ [(pid, s2.current_time - 1, s2.current_time)] }

/-- Completion of the occupant (scheduler.py lines 103-109 / 173-179):
record the completion time, compute the derived metrics, free the CPU,
bump the completed counter. -/
def completeProc (pid : Nat) (s : Scheduler) : Scheduler :=
  let s4 := updateProc s pid
    (fun p => calculate_metrics { p with completion_time := some s.current_time })
  { s4 with completed_count := s4.completed_count + 1,
            current_running_process := none }

/-- One idle tick (scheduler.py lines 111-115 / 186-191). -/
def idleTick (s : Scheduler) : Scheduler :=
  { s with cpu_idle_time := s.cpu_idle_time + 1,
           current_time := s.current_time + 1,
           gantt_chart := s.gantt_chart ++ [(0, s.current_time, s.current_time + 1)] }

/-- The FCFS execute-or-idle block (scheduler.py lines 93-115): run the
occupant for one tick (completing it if its remaining burst hits 0), or
record one idle tick. -/
def fcfsExec (s : Scheduler) : Scheduler :=
  match s.current_running_process with
  | some pid =>
      let s3 := tickExec pid s
      if (lookupProc s3 pid).any (fun p => p.remaining_burst_time == 0) then
        completeProc pid s3
      else s3
  | none => idleTick s

/-- One iteration of the FCFS while-loop body (scheduler.py lines 81-118):
admission, dispatch, execute-or-idle, trailing admission. -/
def fcfsStep (s : Scheduler) : Scheduler :=
  addArrivals (fcfsExec (dispatchStep (addArrivals s)))

/-- The FCFS while-loop (scheduler.py line 80), with explicit fuel:
`none` means the Python loop would still be running. -/
def fcfsLoop : Nat → Scheduler → Option Scheduler
  | 0, s =>
      if s.completed_count < s.all_processes.length then none else some s
  | fuel + 1, s =>
      if s.completed_count < s.all_processes.length then fcfsLoop fuel (fcfsStep s)
      else some s

/-- `Process` reset performed at the start of both run methods
(scheduler.py lines 68-74 and 136-142). -/
def resetProc (p : Proc) : Proc :=
  { p with remaining_burst_time := p.burst_time, start_time := none,
           completion_time := none, waiting_time := 0, turnaround_time := 0,
           response_time := none }

/-- The shared reset at the start of both run methods (scheduler.py lines
62-77 and 130-145): clock, idle accumulator, trace, ready queue, the
per-process fields and the completed counter are cleared; the occupant
slot `current_running_process` is NOT touched. -/
def resetForRun (s : Scheduler) : Scheduler :=
  { s with current_time := 0, cpu_idle_time := 0, gantt_chart := [],
           ready_queue := [],
           all_processes := s.all_processes.map resetProc,
           completed_count := 0 }

/-- Fuel sufficient for any run over the registered set (total ticks are
bounded by the burst total plus the largest arrival). -/
def fuelBound (s : Scheduler) : Nat :=
  (s.all_processes.map (·.burst_time)).sum +
  (s.all_processes.map (·.arrival_time)).foldr max 0 + 2

/-- `Scheduler.run_fcfs` (scheduler.py lines 58-121). -/
def run_fcfs (s : Scheduler) : Option Scheduler :=
  fcfsLoop (fuelBound s) (resetForRun s)

/-- The inner slice loop of Round Robin (scheduler.py lines 165-169): one
tick of execution followed by an admission scan, repeated. -/
def rrSlice (pid : Nat) : Nat → Scheduler → Scheduler
  | 0, s => s
  | k + 1, s => rrSlice pid k (addArrivals (tickExec pid s))

/-- The Round-Robin idle-jump inner loop (scheduler.py lines 207-211):
`idle_duration` single idle ticks. -/
def idleTicks : Nat → Scheduler → Scheduler
  | 0, s => s
  | k + 1, s => idleTicks k (idleTick s)

/-- The next-arrival scan of the Round-Robin idle jump (scheduler.py lines
200-203): minimum arrival time strictly beyond the clock among processes
that still need CPU; `none` plays the role of `float('inf')`. -/
def nextArrival (s : Scheduler) : Option Nat :=
  match (s.all_processes.filter (fun p =>
      decide (0 < p.remaining_burst_time) &&
      decide (s.current_time < p.arrival_time))).map (·.arrival_time) with
  | [] => none
  | a :: rest => some (rest.foldl min a)

/-- The admission/dispatch/execute-or-idle part of one Round-Robin loop
iteration (scheduler.py lines 149-191): dispatch, run a slice of
`min(remaining, quantum)` ticks (admission after every tick), then
complete or preempt; or record one idle tick. -/
def rrBody (q : Nat) (s : Scheduler) : Scheduler :=
  let sA := dispatchStep (addArrivals s)
  match sA.current_running_process with
  | some pid =>
      let slice := min (((lookupProc sA pid).map (·.remaining_burst_time)).getD 0) q
      let sC := rrSlice pid slice sA
      if (lookupProc sC pid).any (fun p => p.remaining_burst_time == 0) then
        completeProc pid sC
      else
        { sC with ready_queue := sC.ready_queue ++ [pid],
                  current_running_process := none }
  | none => idleTick sA

/-- One iteration of the Round-Robin while-loop body (scheduler.py lines
148-214): `rrBody` followed by the end-of-iteration checks of lines
193-213 (final break, or idle-advance to the next arrival, or the "no
more arrivals, we must be done" break).  The `Bool` is the break flag. -/
def rrStep (q : Nat) (s : Scheduler) : Scheduler × Bool :=
  let sB := rrBody q s
  if sB.ready_queue.isEmpty && (sB.current_running_process == none) &&
     (sB.completed_count == sB.all_processes.length) then
    (sB, true)
  else if sB.ready_queue.isEmpty && (sB.current_running_process == none) &&
          decide (sB.completed_count < sB.all_processes.length) then
    match nextArrival sB with
    | some n => (idleTicks (n - sB.current_time) sB, false)
    | none => (sB, true)
  else (sB, false)

/-- The Round-Robin while-loop (scheduler.py line 148), with explicit
fuel. -/
def rrLoop (q : Nat) : Nat → Scheduler → Option Scheduler
  | 0, s =>
      if s.completed_count < s.all_processes.length then none else some s
  | fuel + 1, s =>
      if s.completed_count < s.all_processes.length then
        match rrStep q s with
        | (s', true) => some s'
        | (s', false) => rrLoop q fuel s'
      else some s

/-- `Scheduler.run_round_robin` (scheduler.py lines 123-217). -/
def run_round_robin (q : Nat) (s : Scheduler) : Option Scheduler :=
  rrLoop q (fuelBound s) (resetForRun s)

/-- CPU utilization as computed by `display_results` (scheduler.py line
228): `((time - idle)/time)*100` guarded by `time > 0`. -/
def cpu_utilization (s : Scheduler) : ℚ :=
  if 0 < s.current_time then
    (((s.current_time : ℚ) - (s.cpu_idle_time : ℚ)) / (s.current_time : ℚ)) * 100
  else 0

/-- The rows of the per-process metrics table printed by `display_results`
(scheduler.py lines 258-266): completed processes, sorted by pid. -/
def metricsRows (s : Scheduler) : List Proc :=
  (sortByPid s.all_processes).filter (fun p => p.completion_time.isSome)

/-- Modelled from the spec (§4.2, FCFS idle handling): the direct-jump idle
advancement — "jump the clock directly to the next unarrived process's
arrival time, crediting all skipped ticks to idle in one trace
interval". -/
def idleJump (n : Nat) (s : Scheduler) : Scheduler :=
  { s with cpu_idle_time := s.cpu_idle_time + (n - s.current_time),
           current_time := n,
           gantt_chart := s.gantt_chart ++ [(0, s.current_time, n)] }

/-- The direct-jump variant of the FCFS execute-or-idle block: identical
except that the idle branch jumps to the next arrival.  When no future
arrival exists (the state §4.2/§7 of the spec call an unreachable internal
inconsistency) a single idle tick is recorded so the step stays total;
such a state can never reach the loop's exit in either variant. -/
def fcfsJumpExec (s : Scheduler) : Scheduler :=
  match s.current_running_process with
  | some _ => fcfsExec s
  | none =>
      match nextArrival s with
      | some n => idleJump n s
      | none => idleTick s

/-- The FCFS loop body with the direct-jump idle advancement in place of
the single-tick idle branch. -/
def fcfsJumpStep (s : Scheduler) : Scheduler :=
  addArrivals (fcfsJumpExec (dispatchStep (addArrivals s)))

/-- The FCFS while-loop over the jump variant of the body. -/
def fcfsJumpLoop : Nat → Scheduler → Option Scheduler
  | 0, s =>
      if s.completed_count < s.all_processes.length then none else some s
  | fuel + 1, s =>
      if s.completed_count < s.all_processes.length then fcfsJumpLoop fuel (fcfsJumpStep s)
      else some s

/-- `run_fcfs` with the direct-jump idle advancement. -/
def run_fcfs_jump (s : Scheduler) : Option Scheduler :=
  fcfsJumpLoop (fuelBound s) (resetForRun s)

/-- Splitting one trace interval into single-tick intervals when it is an
idle interval (owner marker 0); non-idle intervals are kept as they are. -/
def expandI (e : Nat × Nat × Nat) : List (Nat × Nat × Nat) :=
  if e.1 = 0 then (List.range (e.2.2 - e.2.1)).map (fun i => (0, e.2.1 + i, e.2.1 + i + 1))
  else [e]

/-- A trace with every idle interval split into single ticks. -/
def expandIdle (g : List (Nat × Nat × Nat)) : List (Nat × Nat × Nat) :=
  (g.map expandI).flatten

/-- `chainB a g b`: the intervals of `g` are non-empty and contiguous,
starting at `a` and ending at `b` (so they tile `[a, b)` exactly). -/
def chainB : Nat → List (Nat × Nat × Nat) → Nat → Bool
  | a, [], b => a == b
  | a, (_, st, en) :: rest, b => st == a && decide (a < en) && chainB en rest b

/-! ### Projection simp lemmas for the phase functions -/

@[simp] lemma addArrivals_procs (s : Scheduler) :
    (addArrivals s).all_processes = s.all_processes := rfl

@[simp] lemma addArrivals_running (s : Scheduler) :
    (addArrivals s).current_running_process = s.current_running_process := rfl

@[simp] lemma addArrivals_time (s : Scheduler) :
    (addArrivals s).current_time = s.current_time := rfl

@[simp] lemma addArrivals_idle (s : Scheduler) :
    (addArrivals s).cpu_idle_time = s.cpu_idle_time := rfl

@[simp] lemma addArrivals_gantt (s : Scheduler) :
    (addArrivals s).gantt_chart = s.gantt_chart := rfl

@[simp] lemma addArrivals_count (s : Scheduler) :
    (addArrivals s).completed_count = s.completed_count := rfl

@[simp] lemma updateProc_ready (s : Scheduler) (pid : Nat) (f : Proc → Proc) :
    (updateProc s pid f).ready_queue = s.ready_queue := rfl

@[simp] lemma updateProc_running (s : Scheduler) (pid : Nat) (f : Proc → Proc) :
    (updateProc s pid f).current_running_process = s.current_running_process := rfl

@[simp] lemma updateProc_time (s : Scheduler) (pid : Nat) (f : Proc → Proc) :
    (updateProc s pid f).current_time = s.current_time := rfl

@[simp] lemma updateProc_idle (s : Scheduler) (pid : Nat) (f : Proc → Proc) :
    (updateProc s pid f).cpu_idle_time = s.cpu_idle_time := rfl

@[simp] lemma updateProc_gantt (s : Scheduler) (pid : Nat) (f : Proc → Proc) :
    (updateProc s pid f).gantt_chart = s.gantt_chart := rfl

@[simp] lemma updateProc_count (s : Scheduler) (pid : Nat) (f : Proc → Proc) :
    (updateProc s pid f).completed_count = s.completed_count := rfl

lemma dispatchStep_of_running (s : Scheduler) (p : Nat)
    (h : s.current_running_process = some p) : dispatchStep s = s := by
  unfold dispatchStep
  rw [h]

/-! ### C1, C2, C9: concrete runs -/

def bugEngine : Scheduler := add_process initScheduler (mkProcess 1 1 1)

/-- C1: the claim states that both run methods terminate exactly when every
registered process has a set completion time.  The code violates this:
`run_round_robin` with quantum 1 on the registered set {P1(arrival = 1,
burst = 1)} returns after a single idle tick with P1 never scheduled —
its completion time still unset and its full burst remaining — because
the next-arrival scan (strict `>`) finds nothing when the idle tick lands
exactly on the arrival time and the loop takes the "we must be done"
break. -/
theorem c1_rr_returns_with_unset_completion :
    (run_round_robin 1 bugEngine).map
        (fun f => (f.current_time, f.cpu_idle_time,
          f.all_processes.map (fun p => (p.pid, p.completion_time, p.remaining_burst_time)))) =
      some (1, 1, [(1, none, 1)]) := by
  rfl

def scenarioC : Scheduler :=
  add_process (add_process initScheduler (mkProcess 1 0 5)) (mkProcess 2 1 3)

/-- C2: Round-Robin with quantum 2 on P1(arrival 0, burst 5), P2(arrival 1,
burst 3): P1 runs ticks [0,2) and is preempted with remaining 3 (behind the
newly admitted P2 in the queue); P2 runs [2,4) with remaining 1; P1 runs
[4,6) with remaining 1; P2 runs [6,7) and completes at 7; P1 runs [7,8) and
completes at 8; total ticks 8, idle ticks 0. -/
theorem c2_round_robin_scenario :
    (run_round_robin 2 scenarioC).map
        (fun f => (f.gantt_chart, f.current_time, f.cpu_idle_time,
          f.all_processes.map (fun p => (p.pid, p.completion_time)))) =
      some ([(1,0,1), (1,1,2), (2,2,3), (2,3,4), (1,4,5), (1,5,6), (2,6,7), (1,7,8)],
        8, 0, [(1, some 8), (2, some 7)]) ∧
    ((rrStep 2 (resetForRun scenarioC)).1.all_processes.map
        (fun p => (p.pid, p.remaining_burst_time)) = [(1, 3), (2, 3)] ∧
      (rrStep 2 (resetForRun scenarioC)).1.ready_queue = [2, 1] ∧
      (rrStep 2 (resetForRun scenarioC)).1.current_time = 2) ∧
    ((rrStep 2 (rrStep 2 (resetForRun scenarioC)).1).1.all_processes.map
        (fun p => (p.pid, p.remaining_burst_time)) = [(1, 3), (2, 1)] ∧
      (rrStep 2 (rrStep 2 (resetForRun scenarioC)).1).1.ready_queue = [1, 2] ∧
      (rrStep 2 (rrStep 2 (resetForRun scenarioC)).1).1.current_time = 4) := by
  exact ⟨rfl, ⟨rfl, rfl, rfl⟩, ⟨rfl, rfl, rfl⟩⟩

/-- C9: with an empty registered set, `run_fcfs` returns (no error), with
total ticks 0, idle ticks 0, CPU utilization 0 (the division is guarded
when the total time is 0) and an empty per-process metrics table. -/
theorem c9_empty_set_run :
    run_fcfs initScheduler = some initScheduler ∧
    initScheduler.current_time = 0 ∧ initScheduler.cpu_idle_time = 0 ∧
    cpu_utilization initScheduler = 0 ∧ metricsRows initScheduler = [] := by
  refine ⟨rfl, rfl, rfl, ?_, rfl⟩
  simp [cpu_utilization, initScheduler]

/-! ### C7: admission appends in pid order -/

/-- The pid block the admission step appends to the ready queue. -/
def admittedBlock (s : Scheduler) : List Nat :=
  (sortByPid (s.all_processes.filter (arrivalCheck s))).map (fun p => p.pid)

/-- C7: whenever the admission step admits processes (in particular several
with the same arrival time becoming admissible at the same tick), the block
appended to the ready queue is ordered by identifier, and it is a function
of the scheduler state alone (hence the same on every run over the same
registered set). -/
theorem c7_admission_appends_in_pid_order (s : Scheduler) :
    ∃ l : List Nat,
      (addArrivals s).ready_queue = s.ready_queue ++ l ∧
      l.Sorted (· ≤ ·) ∧
      l = admittedBlock s := by
  have h := List.sorted_insertionSort pidLe (s.all_processes.filter (arrivalCheck s))
  have h2 : (admittedBlock s).Sorted (· ≤ ·) := by
    have := List.pairwise_map (l := sortByPid (s.all_processes.filter (arrivalCheck s)))
      (R := fun a b : Nat => a ≤ b) (f := fun p => p.pid)
    exact this.mpr h
  exact ⟨admittedBlock s, rfl, h2, rfl⟩


/-! ### Equation lemmas and basic facts -/

@[simp] lemma tickExec_procs (pid : Nat) (s : Scheduler) :
    (tickExec pid s).all_processes = (updateProc s pid
      (fun p => { p with remaining_burst_time := p.remaining_burst_time - 1 })).all_processes := rfl

@[simp] lemma tickExec_ready (pid : Nat) (s : Scheduler) :
    (tickExec pid s).ready_queue = s.ready_queue := rfl

@[simp] lemma tickExec_running (pid : Nat) (s : Scheduler) :
    (tickExec pid s).current_running_process = s.current_running_process := rfl

@[simp] lemma tickExec_time (pid : Nat) (s : Scheduler) :
    (tickExec pid s).current_time = s.current_time + 1 := rfl

@[simp] lemma tickExec_idle (pid : Nat) (s : Scheduler) :
    (tickExec pid s).cpu_idle_time = s.cpu_idle_time := rfl

@[simp] lemma tickExec_gantt (pid : Nat) (s : Scheduler) :
    (tickExec pid s).gantt_chart =
      s.gantt_chart ++ [(pid, s.current_time, s.current_time + 1)] := rfl

@[simp] lemma tickExec_count (pid : Nat) (s : Scheduler) :
    (tickExec pid s).completed_count = s.completed_count := rfl

@[simp] lemma completeProc_procs (pid : Nat) (s : Scheduler) :
    (completeProc pid s).all_processes = (updateProc s pid
      (fun p => calculate_metrics { p with completion_time := some s.current_time })).all_processes := rfl

@[simp] lemma completeProc_ready (pid : Nat) (s : Scheduler) :
    (completeProc pid s).ready_queue = s.ready_queue := rfl

@[simp] lemma completeProc_running (pid : Nat) (s : Scheduler) :
    (completeProc pid s).current_running_process = none := rfl

@[simp] lemma completeProc_time (pid : Nat) (s : Scheduler) :
    (completeProc pid s).current_time = s.current_time := rfl

@[simp] lemma completeProc_idle (pid : Nat) (s : Scheduler) :
    (completeProc pid s).cpu_idle_time = s.cpu_idle_time := rfl

@[simp] lemma completeProc_gantt (pid : Nat) (s : Scheduler) :
    (completeProc pid s).gantt_chart = s.gantt_chart := rfl

@[simp] lemma completeProc_count (pid : Nat) (s : Scheduler) :
    (completeProc pid s).completed_count = s.completed_count + 1 := rfl

@[simp] lemma idleTick_procs (s : Scheduler) :
    (idleTick s).all_processes = s.all_processes := rfl

@[simp] lemma idleTick_ready (s : Scheduler) :
    (idleTick s).ready_queue = s.ready_queue := rfl

@[simp] lemma idleTick_running (s : Scheduler) :
    (idleTick s).current_running_process = s.current_running_process := rfl

@[simp] lemma idleTick_time (s : Scheduler) :
    (idleTick s).current_time = s.current_time + 1 := rfl

@[simp] lemma idleTick_idle (s : Scheduler) :
    (idleTick s).cpu_idle_time = s.cpu_idle_time + 1 := rfl

@[simp] lemma idleTick_gantt (s : Scheduler) :
    (idleTick s).gantt_chart =
      s.gantt_chart ++ [(0, s.current_time, s.current_time + 1)] := rfl

@[simp] lemma idleTick_count (s : Scheduler) :
    (idleTick s).completed_count = s.completed_count := rfl

lemma fcfsExec_of_running (s : Scheduler) (p : Nat)
    (h : s.current_running_process = some p) :
    fcfsExec s =
      (if (lookupProc (tickExec p s) p).any (fun q => q.remaining_burst_time == 0) then
        completeProc p (tickExec p s)
      else tickExec p s) := by
  unfold fcfsExec
  rw [h]

lemma fcfsExec_of_none (s : Scheduler) (h : s.current_running_process = none) :
    fcfsExec s = idleTick s := by
  unfold fcfsExec
  rw [h]

lemma dispatchStep_none_nil (s : Scheduler) (h : s.current_running_process = none)
    (h2 : s.ready_queue = []) : dispatchStep s = s := by
  unfold dispatchStep
  rw [h, h2]

lemma dispatchStep_none_cons (s : Scheduler) (pid : Nat) (rest : List Nat)
    (h : s.current_running_process = none) (h2 : s.ready_queue = pid :: rest) :
    dispatchStep s = dispatchAssign pid rest s := by
  unfold dispatchStep
  rw [h, h2]

/-! ### C3: FCFS never preempts -/

lemma calculate_metrics_remaining (p : Proc) :
    (calculate_metrics p).remaining_burst_time = p.remaining_burst_time := by
  unfold calculate_metrics
  split <;> rfl

lemma calculate_metrics_pid (p : Proc) : (calculate_metrics p).pid = p.pid := by
  unfold calculate_metrics
  split <;> rfl

lemma lookupProc_spec (s : Scheduler) (pid : Nat) (q : Proc)
    (h : lookupProc s pid = some q) : q ∈ s.all_processes ∧ q.pid = pid := by
  have h1 := List.mem_of_find?_eq_some h
  have h2 := List.find?_some h
  exact ⟨h1, by simpa using h2⟩

lemma updateProc_map_pid (s : Scheduler) (pid : Nat) (f : Proc → Proc)
    (hf : ∀ p, (f p).pid = p.pid) :
    (updateProc s pid f).all_processes.map (·.pid) = s.all_processes.map (·.pid) := by
  unfold updateProc
  simp only [List.map_map]
  refine List.map_congr_left (fun a _ => ?_)
  simp only [Function.comp]
  split <;> simp [hf]

lemma mem_updateProc (s : Scheduler) (pid : Nat) (f : Proc → Proc) (pr : Proc)
    (h : pr ∈ (updateProc s pid f).all_processes) :
    ∃ q ∈ s.all_processes, (if q.pid == pid then f q else q) = pr := by
  unfold updateProc at h
  obtain ⟨q, hq, he⟩ := List.mem_map.mp h
  exact ⟨q, hq, he⟩

/-- C3: under FCFS, one loop iteration never moves the CPU from one
incomplete occupant to a different process: either the occupant is
unchanged, or the CPU is released because the occupant's remaining burst
has reached 0. -/
theorem c3_fcfs_never_preempts (s : Scheduler) (p : Nat)
    (hnd : (s.all_processes.map (·.pid)).Nodup)
    (h : s.current_running_process = some p) :
    (fcfsStep s).current_running_process = some p ∨
    ((fcfsStep s).current_running_process = none ∧
      ∀ pr ∈ (fcfsStep s).all_processes, pr.pid = p → pr.remaining_burst_time = 0) := by
  have hA : (addArrivals s).current_running_process = some p := by simpa using h
  have hD : dispatchStep (addArrivals s) = addArrivals s :=
    dispatchStep_of_running _ p hA
  unfold fcfsStep
  rw [hD, fcfsExec_of_running _ p hA]
  set s3 := tickExec p (addArrivals s) with hs3
  have hnd3 : (s3.all_processes.map (·.pid)).Nodup := by
    rw [hs3, tickExec_procs, updateProc_map_pid]
    · simpa using hnd
    · intro q; rfl
  by_cases hc : (lookupProc s3 p).any (fun q => q.remaining_burst_time == 0)
  · right
    rw [if_pos hc]
    refine ⟨rfl, ?_⟩
    intro pr hpr hpid
    obtain ⟨w, hw⟩ : ∃ w, lookupProc s3 p = some w := by
      cases hl : lookupProc s3 p with
      | none => rw [hl] at hc; simp [Option.any] at hc
      | some w => exact ⟨w, rfl⟩
    have hw0 : w.remaining_burst_time = 0 := by
      rw [hw] at hc
      simpa [Option.any] using hc
    obtain ⟨hwmem, hwpid⟩ := lookupProc_spec _ _ _ hw
    have hpr' : pr ∈ (updateProc s3 p
        (fun q => calculate_metrics { q with completion_time := some s3.current_time })).all_processes := by
      simpa using hpr
    obtain ⟨q, hqmem, hq⟩ := mem_updateProc _ _ _ _ hpr'
    by_cases hqp : q.pid == p
    · have hq' : calculate_metrics { q with completion_time := some s3.current_time } = pr := by
        rwa [if_pos hqp] at hq
      have hqpid : q.pid = p := by simpa using hqp
      have hqw : q = w :=
        List.inj_on_of_nodup_map hnd3 hqmem hwmem (by rw [hqpid, hwpid])
      rw [← hq', calculate_metrics_remaining]
      simpa [hqw] using hw0
    · have hq' : q = pr := by rwa [if_neg hqp] at hq
      rw [← hq'] at hpid
      exact absurd (by simpa using hpid) (by simpa using hqp)
  · left
    rw [if_neg hc]
    rw [addArrivals_running, hs3, tickExec_running, addArrivals_running, h]

def c3Engine : Scheduler :=
  { ready_queue := [], all_processes := [mkProcess 1 0 2], current_time := 0,
    cpu_idle_time := 0, current_running_process := some 1, gantt_chart := [],
    completed_count := 0 }

/-- Witness for C3 at a concrete scheduler state whose CPU occupant is
process 1. -/
theorem c3_fcfs_never_preempts_witness :
    ((c3Engine.all_processes.map (·.pid)).Nodup ∧
      c3Engine.current_running_process = some 1) ∧
    ((fcfsStep c3Engine).current_running_process = some 1 ∨
      ((fcfsStep c3Engine).current_running_process = none ∧
        ∀ pr ∈ (fcfsStep c3Engine).all_processes, pr.pid = 1 →
          pr.remaining_burst_time = 0)) :=
  ⟨⟨by decide, rfl⟩, c3_fcfs_never_preempts c3Engine 1 (by decide) rfl⟩

/-! ### C4: the trace tiles [0, final clock) -/

lemma dispatchAssign_gantt (pid : Nat) (rest : List Nat) (s : Scheduler) :
    (dispatchAssign pid rest s).gantt_chart = s.gantt_chart := by
  unfold dispatchAssign
  dsimp only
  split
  · split <;> rfl
  · rfl

lemma dispatchAssign_time (pid : Nat) (rest : List Nat) (s : Scheduler) :
    (dispatchAssign pid rest s).current_time = s.current_time := by
  unfold dispatchAssign
  dsimp only
  split
  · split <;> rfl
  · rfl

lemma dispatchAssign_idle (pid : Nat) (rest : List Nat) (s : Scheduler) :
    (dispatchAssign pid rest s).cpu_idle_time = s.cpu_idle_time := by
  unfold dispatchAssign
  dsimp only
  split
  · split <;> rfl
  · rfl

lemma dispatchAssign_count (pid : Nat) (rest : List Nat) (s : Scheduler) :
    (dispatchAssign pid rest s).completed_count = s.completed_count := by
  unfold dispatchAssign
  dsimp only
  split
  · split <;> rfl
  · rfl

lemma dispatchStep_gantt (s : Scheduler) :
    (dispatchStep s).gantt_chart = s.gantt_chart := by
  unfold dispatchStep
  split
  · exact dispatchAssign_gantt _ _ _
  · rfl

lemma dispatchStep_time (s : Scheduler) :
    (dispatchStep s).current_time = s.current_time := by
  unfold dispatchStep
  split
  · exact dispatchAssign_time _ _ _
  · rfl

lemma dispatchStep_idle (s : Scheduler) :
    (dispatchStep s).cpu_idle_time = s.cpu_idle_time := by
  unfold dispatchStep
  split
  · exact dispatchAssign_idle _ _ _
  · rfl

lemma dispatchStep_count (s : Scheduler) :
    (dispatchStep s).completed_count = s.completed_count := by
  unfold dispatchStep
  split
  · exact dispatchAssign_count _ _ _
  · rfl

/-- The trace tiles `[0, current clock)`. -/
def ChainInv (s : Scheduler) : Prop :=
  chainB 0 s.gantt_chart s.current_time = true

lemma chainB_append {a b c : Nat} {g g' : List (Nat × Nat × Nat)}
    (h : chainB a g b = true) (h' : chainB b g' c = true) :
    chainB a (g ++ g') c = true := by
  induction g generalizing a with
  | nil =>
      have : a = b := by simpa [chainB] using h
      simpa [this] using h'
  | cons e tl ih =>
      obtain ⟨pid, st, en⟩ := e
      simp only [chainB, Bool.and_eq_true, beq_iff_eq, decide_eq_true_eq] at h
      simp only [List.cons_append, chainB, Bool.and_eq_true, beq_iff_eq, decide_eq_true_eq]
      exact ⟨⟨h.1.1, h.1.2⟩, ih h.2⟩

lemma chainB_unit (pid a : Nat) {g : List (Nat × Nat × Nat)}
    (h : chainB 0 g a = true) :
    chainB 0 (g ++ [(pid, a, a + 1)]) (a + 1) = true := by
  refine chainB_append h ?_
  simp [chainB]

lemma ChainInv_addArrivals {s : Scheduler} (h : ChainInv s) : ChainInv (addArrivals s) := h

lemma ChainInv_dispatchStep {s : Scheduler} (h : ChainInv s) : ChainInv (dispatchStep s) := by
  unfold ChainInv
  rw [dispatchStep_gantt, dispatchStep_time]
  exact h

lemma ChainInv_tickExec {s : Scheduler} (pid : Nat) (h : ChainInv s) :
    ChainInv (tickExec pid s) := by
  unfold ChainInv
  rw [tickExec_gantt, tickExec_time]
  exact chainB_unit pid s.current_time h

lemma ChainInv_idleTick {s : Scheduler} (h : ChainInv s) : ChainInv (idleTick s) := by
  unfold ChainInv
  rw [idleTick_gantt, idleTick_time]
  exact chainB_unit 0 s.current_time h

lemma ChainInv_completeProc {s : Scheduler} (pid : Nat) (h : ChainInv s) :
    ChainInv (completeProc pid s) := by
  unfold ChainInv
  rw [completeProc_gantt, completeProc_time]
  exact h

lemma ChainInv_fcfsExec {s : Scheduler} (h : ChainInv s) : ChainInv (fcfsExec s) := by
  unfold fcfsExec
  split
  · dsimp only
    split
    · exact ChainInv_completeProc _ (ChainInv_tickExec _ h)
    · exact ChainInv_tickExec _ h
  · exact ChainInv_idleTick h

lemma ChainInv_fcfsStep {s : Scheduler} (h : ChainInv s) : ChainInv (fcfsStep s) :=
  ChainInv_addArrivals (ChainInv_fcfsExec (ChainInv_dispatchStep (ChainInv_addArrivals h)))

lemma ChainInv_rrSlice {pid : Nat} : ∀ (k : Nat) {s : Scheduler},
    ChainInv s → ChainInv (rrSlice pid k s)
  | 0, _, h => h
  | k + 1, _, h =>
      ChainInv_rrSlice k (ChainInv_addArrivals (ChainInv_tickExec pid h))

lemma ChainInv_idleTicks : ∀ (k : Nat) {s : Scheduler},
    ChainInv s → ChainInv (idleTicks k s)
  | 0, _, h => h
  | k + 1, _, h => ChainInv_idleTicks k (ChainInv_idleTick h)

lemma ChainInv_rrBody {s : Scheduler} (q : Nat) (h : ChainInv s) : ChainInv (rrBody q s) := by
  unfold rrBody
  have hA : ChainInv (dispatchStep (addArrivals s)) :=
    ChainInv_dispatchStep (ChainInv_addArrivals h)
  dsimp only
  split
  · split
    · exact ChainInv_completeProc _ (ChainInv_rrSlice _ hA)
    · exact ChainInv_rrSlice _ hA
  · exact ChainInv_idleTick hA

lemma rrStep_fst_cases (q : Nat) (s : Scheduler) :
    (rrStep q s).1 = rrBody q s ∨
    ∃ k, (rrStep q s).1 = idleTicks k (rrBody q s) := by
  unfold rrStep
  simp only []
  split
  · exact Or.inl rfl
  · split
    · split
      · exact Or.inr ⟨_, rfl⟩
      · exact Or.inl rfl
    · exact Or.inl rfl

lemma ChainInv_rrStep {s : Scheduler} (q : Nat) (h : ChainInv s) :
    ChainInv (rrStep q s).1 := by
  rcases rrStep_fst_cases q s with hc | ⟨k, hc⟩
  · rw [hc]; exact ChainInv_rrBody q h
  · rw [hc]; exact ChainInv_idleTicks k (ChainInv_rrBody q h)

lemma fcfsLoop_inv {P : Scheduler → Prop} (hstep : ∀ s, P s → P (fcfsStep s)) :
    ∀ (fuel : Nat) (s f : Scheduler), fcfsLoop fuel s = some f → P s → P f := by
  intro fuel
  induction fuel with
  | zero =>
      intro s f hf hP
      unfold fcfsLoop at hf
      split at hf
      · exact absurd hf (by simp)
      · cases hf; exact hP
  | succ n ih =>
      intro s f hf hP
      unfold fcfsLoop at hf
      split at hf
      · exact ih _ f hf (hstep s hP)
      · cases hf; exact hP

lemma rrLoop_inv {P : Scheduler → Prop} {q : Nat}
    (hstep : ∀ s, P s → P (rrStep q s).1) :
    ∀ (fuel : Nat) (s f : Scheduler), rrLoop q fuel s = some f → P s → P f := by
  intro fuel
  induction fuel with
  | zero =>
      intro s f hf hP
      unfold rrLoop at hf
      split at hf
      · exact absurd hf (by simp)
      · cases hf; exact hP
  | succ n ih =>
      intro s f hf hP
      unfold rrLoop at hf
      split at hf
      · split at hf
        · cases hf
          have := hstep s hP
          rwa [‹rrStep q s = _›] at this
        · have := hstep s hP
          rw [‹rrStep q s = _›] at this
          exact ih _ f hf this
      · cases hf; exact hP

lemma ChainInv_reset (s : Scheduler) : ChainInv (resetForRun s) := by
  unfold ChainInv resetForRun chainB
  simp

/-- C4: for every registered process set and both run methods, the trace
on return is a contiguous sequence of non-empty intervals starting at 0
and ending at the final clock value: it tiles `[0, final clock)` with no
gap and no double-covered tick. -/
theorem c4_trace_tiles (s : Scheduler) (q : Nat) :
    (∀ f, run_fcfs s = some f → chainB 0 f.gantt_chart f.current_time = true) ∧
    (∀ f, run_round_robin q s = some f → chainB 0 f.gantt_chart f.current_time = true) := by
  constructor
  · intro f hf
    exact fcfsLoop_inv (fun s' h => ChainInv_fcfsStep h) _ _ f hf (ChainInv_reset s)
  · intro f hf
    exact rrLoop_inv (fun s' h => ChainInv_rrStep q h) _ _ f hf (ChainInv_reset s)

def gapEngine : Scheduler :=
  add_process (add_process initScheduler (mkProcess 1 0 1)) (mkProcess 2 3 1)

/-- Witness for C4: the tiling property evaluated on a concrete FCFS run
with an idle gap. -/
theorem c4_trace_tiles_witness :
    ∃ f, run_fcfs gapEngine = some f ∧ chainB 0 f.gantt_chart f.current_time = true :=
  ⟨_, rfl, (c4_trace_tiles gapEngine 1).1 _ rfl⟩

/-! ### Per-process and scheduler-state invariants (C8, C10, C6) -/

/-- The timing facts every registered process satisfies at clock `t`
throughout a run. -/
def pInv (t : Nat) (p : Proc) : Prop :=
  p.remaining_burst_time ≤ p.burst_time ∧
  (p.start_time = none → p.remaining_burst_time = p.burst_time) ∧
  (∀ st, p.start_time = some st →
      p.arrival_time ≤ st ∧ st + (p.burst_time - p.remaining_burst_time) ≤ t) ∧
  (∀ c, p.completion_time = some c →
      p.remaining_burst_time = 0 ∧
      (∃ st, p.start_time = some st ∧ st + p.burst_time ≤ c) ∧
      c ≤ t ∧
      p.turnaround_time = (c : Int) - (p.arrival_time : Int) ∧
      p.waiting_time = p.turnaround_time - (p.burst_time : Int))

lemma pInv_mono {t t' : Nat} {p : Proc} (h : pInv t p) (ht : t ≤ t') : pInv t' p := by
  obtain ⟨h1, h2, h3, h4⟩ := h
  refine ⟨h1, h2, fun st hst => ?_, fun c hc => ?_⟩
  · obtain ⟨ha, hb⟩ := h3 st hst
    exact ⟨ha, hb.trans ht⟩
  · obtain ⟨ha, hb, hcle, hd, he⟩ := h4 c hc
    exact ⟨ha, hb, hcle.trans ht, hd, he⟩

lemma calculate_metrics_of_some (p : Proc) (c st : Nat)
    (hc : p.completion_time = some c) (hst : p.start_time = some st) :
    calculate_metrics p =
      { p with turnaround_time := (c : Int) - (p.arrival_time : Int),
               waiting_time := (c : Int) - (p.arrival_time : Int) - (p.burst_time : Int) } := by
  unfold calculate_metrics
  rw [hc, hst]

/-- State invariant shared by both run loops. -/
structure CoreInv (s : Scheduler) : Prop where
  nodup : (s.all_processes.map (·.pid)).Nodup
  pinv : ∀ p ∈ s.all_processes, pInv s.current_time p
  rq_nodup : s.ready_queue.Nodup
  rq_mem : ∀ r ∈ s.ready_queue, ∃ p ∈ s.all_processes, p.pid = r ∧
      p.arrival_time ≤ s.current_time ∧ 0 < p.remaining_burst_time ∧
      p.completion_time = none
  rq_run : ∀ r ∈ s.ready_queue, s.current_running_process ≠ some r
  count : s.completed_count = s.all_processes.countP (fun p => p.completion_time.isSome)

/-- The facts about the CPU occupant maintained by the FCFS loop. -/
def runInv (s : Scheduler) : Prop :=
  ∀ pid, s.current_running_process = some pid →
    ∃ p ∈ s.all_processes, p.pid = pid ∧ 0 < p.remaining_burst_time ∧
      p.completion_time = none ∧ p.start_time ≠ none ∧
      p.arrival_time ≤ s.current_time

/-- Full FCFS loop invariant. -/
def FInv (s : Scheduler) : Prop := CoreInv s ∧ runInv s

lemma mem_addArrivals_ready {s : Scheduler} {r : Nat} :
    r ∈ (addArrivals s).ready_queue ↔
      r ∈ s.ready_queue ∨
      ∃ p ∈ s.all_processes, arrivalCheck s p = true ∧ p.pid = r := by
  unfold addArrivals
  simp only [List.mem_append, List.mem_map, sortByPid, List.mem_insertionSort,
    List.mem_filter]
  constructor
  · rintro (h | ⟨p, ⟨hp, hchk⟩, hpid⟩)
    · exact Or.inl h
    · exact Or.inr ⟨p, hp, hchk, hpid⟩
  · rintro (h | ⟨p, hp, hchk, hpid⟩)
    · exact Or.inl h
    · exact Or.inr ⟨p, ⟨hp, hchk⟩, hpid⟩

lemma arrivalCheck_spec {s : Scheduler} {p : Proc} (h : arrivalCheck s p = true) :
    p.arrival_time ≤ s.current_time ∧ 0 < p.remaining_burst_time ∧
      p.pid ∉ s.ready_queue ∧ s.current_running_process ≠ some p.pid := by
  unfold arrivalCheck at h
  simp only [Bool.and_eq_true, decide_eq_true_eq, Bool.not_eq_true'] at h
  obtain ⟨⟨⟨h1, h2⟩, h3⟩, h4⟩ := h
  refine ⟨h1, h2, ?_, ?_⟩
  · simpa using h3
  · intro hc
    rw [hc] at h4
    simp at h4

lemma pInv_completion_none {t : Nat} {p : Proc} (h : pInv t p)
    (hrem : 0 < p.remaining_burst_time) : p.completion_time = none := by
  cases hc : p.completion_time with
  | none => rfl
  | some c =>
      have := (h.2.2.2 c hc).1
      omega

lemma CoreInv_addArrivals {s : Scheduler} (h : CoreInv s) : CoreInv (addArrivals s) := by
  obtain ⟨nodup, pinv, rq_nodup, rq_mem, rq_run, count⟩ := h
  refine ⟨nodup, pinv, ?_, ?_, ?_, count⟩
  · -- nodup of the extended ready queue
    unfold addArrivals
    simp only []
    rw [List.nodup_append]
    refine ⟨rq_nodup, ?_, ?_⟩
    · -- the appended pid block is nodup
      have hperm : List.Perm
          ((sortByPid (s.all_processes.filter (arrivalCheck s))).map (fun p => p.pid))
          ((s.all_processes.filter (arrivalCheck s)).map (fun p => p.pid)) :=
        (List.perm_insertionSort pidLe _).map _
      refine hperm.nodup_iff.mpr ?_
      have hsub : List.Sublist
          ((s.all_processes.filter (arrivalCheck s)).map (fun p => p.pid))
          (s.all_processes.map (fun p => p.pid)) :=
        (List.filter_sublist _).map _
      exact hsub.nodup nodup
    · -- disjointness
      intro r hr hr'
      simp only [List.mem_map, sortByPid, List.mem_insertionSort, List.mem_filter] at hr'
      obtain ⟨p, ⟨_, hchk⟩, hpid⟩ := hr'
      obtain ⟨_, _, hnotin, _⟩ := arrivalCheck_spec hchk
      exact hnotin (hpid ▸ hr)
  · -- membership facts
    intro r hr
    rcases mem_addArrivals_ready.mp hr with hold | ⟨p, hp, hchk, hpid⟩
    · simpa using rq_mem r hold
    · obtain ⟨ha, hb, _, _⟩ := arrivalCheck_spec hchk
      exact ⟨p, by simpa using hp, hpid, ha, hb,
        pInv_completion_none (pinv p hp) hb⟩
  · -- never the occupant
    intro r hr
    rcases mem_addArrivals_ready.mp hr with hold | ⟨p, hp, hchk, hpid⟩
    · simpa using rq_run r hold
    · obtain ⟨_, _, _, hrun⟩ := arrivalCheck_spec hchk
      simpa [hpid] using hrun

lemma runInv_addArrivals {s : Scheduler} (h : runInv s) : runInv (addArrivals s) := by
  intro pid hpid
  simp only [addArrivals_running] at hpid
  obtain ⟨p, hp, h1, h2, h3, h4, h5⟩ := h pid hpid
  exact ⟨p, by simpa using hp, h1, h2, h3, h4, by simpa using h5⟩

lemma find?_map_update (l : List Proc) (pid : Nat) (f : Proc → Proc)
    (hf : ∀ p, (f p).pid = p.pid) :
    (l.map (fun p => if p.pid == pid then f p else p)).find? (fun p => p.pid == pid) =
      (l.find? (fun p => p.pid == pid)).map f := by
  induction l with
  | nil => rfl
  | cons a tl ih =>
      by_cases h : (a.pid == pid) = true
      · rw [List.map_cons, if_pos h, List.find?_cons_of_pos, List.find?_cons_of_pos]
        · rfl
        · exact h
        · simpa [hf] using h
      · rw [List.map_cons, if_neg h, List.find?_cons_of_neg, List.find?_cons_of_neg, ih]
        · exact h
        · exact h

lemma lookupProc_updateProc (s : Scheduler) (pid : Nat) (f : Proc → Proc)
    (hf : ∀ p, (f p).pid = p.pid) :
    lookupProc (updateProc s pid f) pid = (lookupProc s pid).map f :=
  find?_map_update s.all_processes pid f hf

lemma lookupProc_of_mem {s : Scheduler} {h : Nat}
    (hmem : ∃ p ∈ s.all_processes, p.pid = h) : ∃ w, lookupProc s h = some w := by
  cases hl : lookupProc s h with
  | some w => exact ⟨w, rfl⟩
  | none =>
      obtain ⟨p, hp, hpid⟩ := hmem
      have := List.find?_eq_none.mp hl p hp
      simp [hpid] at this

lemma mem_updateProc_other {s : Scheduler} {pid : Nat} {f : Proc → Proc} {p : Proc}
    (hp : p ∈ s.all_processes) (hne : (p.pid == pid) = false) :
    p ∈ (updateProc s pid f).all_processes := by
  unfold updateProc
  simp only [List.mem_map]
  exact ⟨p, hp, by rw [hne]; rfl⟩

lemma mem_updateProc_self {s : Scheduler} {pid : Nat} {f : Proc → Proc} {w : Proc}
    (hw : w ∈ s.all_processes) (hpid : w.pid = pid) :
    f w ∈ (updateProc s pid f).all_processes := by
  unfold updateProc
  simp only [List.mem_map]
  exact ⟨w, hw, by simp [hpid]⟩

lemma mem_updateProc_nodup {s : Scheduler} {pid : Nat} {f : Proc → Proc} {w pr : Proc}
    (hnd : (s.all_processes.map (·.pid)).Nodup)
    (hwmem : w ∈ s.all_processes) (hwpid : w.pid = pid)
    (hpr : pr ∈ (updateProc s pid f).all_processes) :
    pr = f w ∨ (pr ∈ s.all_processes ∧ (pr.pid == pid) = false) := by
  obtain ⟨q, hq, he⟩ := mem_updateProc _ _ _ _ hpr
  by_cases hqp : (q.pid == pid) = true
  · left
    have hqpid : q.pid = pid := by simpa using hqp
    have : q = w := List.inj_on_of_nodup_map hnd hq hwmem (by rw [hqpid, hwpid])
    rw [← he, if_pos hqp, this]
  · right
    rw [← he, if_neg hqp]
    refine ⟨hq, ?_⟩
    simpa using hqp

lemma countP_update_of_nodup (P : Proc → Bool) (pid : Nat) (f : Proc → Proc) :
    ∀ (l : List Proc), (l.map (·.pid)).Nodup →
    ∀ w, l.find? (fun p => p.pid == pid) = some w →
    (l.map (fun p => if p.pid == pid then f p else p)).countP P +
      (if P w then 1 else 0) =
    l.countP P + (if P (f w) then 1 else 0) := by
  intro l
  induction l with
  | nil => intro _ w hw; simp at hw
  | cons a tl ih =>
      intro hnd w hw
      have hnd' : (tl.map (·.pid)).Nodup := (List.nodup_cons.mp hnd).2
      by_cases h : (a.pid == pid) = true
      · simp only [List.find?, h] at hw
        obtain rfl : a = w := Option.some.inj hw
        have hapid : a.pid = pid := by simpa using h
        have htl : tl.map (fun p => if p.pid == pid then f p else p) = tl := by
          conv_rhs => rw [← List.map_id tl]
          refine List.map_congr_left (fun q hq => ?_)
          have hqne : q.pid ≠ pid := by
            intro hqe
            have hnotin := (List.nodup_cons.mp hnd).1
            refine hnotin ?_
            show a.pid ∈ tl.map (fun x => x.pid)
            rw [hapid, ← hqe]
            exact List.mem_map.mpr ⟨q, hq, rfl⟩
          rw [if_neg (by simpa using hqne)]
          rfl
        rw [List.map_cons, if_pos h, htl]
        rw [List.countP_cons, List.countP_cons]
        omega
      · rw [Bool.not_eq_true] at h
        simp only [List.find?, h] at hw
        rw [List.map_cons, if_neg (by simp [h])]
        rw [List.countP_cons, List.countP_cons]
        have := ih hnd' w hw
        omega


/-- The first-dispatch update applied to the new occupant. -/
def startUpdate (t : Nat) (q : Proc) : Proc :=
  { q with start_time := some t,
           response_time := some ((t : Int) - (q.arrival_time : Int)) }

lemma dispatchAssign_eq_some {s : Scheduler} {h : Nat} {rest : List Nat} {w : Proc}
    (hw : lookupProc s h = some w) :
    dispatchAssign h rest s =
      (if w.start_time = none then
        updateProc { s with current_running_process := some h, ready_queue := rest } h
          (startUpdate s.current_time)
      else { s with current_running_process := some h, ready_queue := rest }) := by
  unfold dispatchAssign
  dsimp only
  rw [show lookupProc { s with current_running_process := some h, ready_queue := rest } h
      = some w from hw]
  rfl

lemma dispatchAssign_eq_none {s : Scheduler} {h : Nat} {rest : List Nat}
    (hw : lookupProc s h = none) :
    dispatchAssign h rest s =
      { s with current_running_process := some h, ready_queue := rest } := by
  unfold dispatchAssign
  dsimp only
  rw [show lookupProc { s with current_running_process := some h, ready_queue := rest } h
      = none from hw]

lemma FInv_dispatchAssign {s : Scheduler} {h : Nat} {rest : List Nat}
    (hF : FInv s) (hready : s.ready_queue = h :: rest) :
    FInv (dispatchAssign h rest s) := by
  obtain ⟨⟨nodup, pinv, rq_nodup, rq_mem, rq_run, count⟩, _⟩ := hF
  have hhead : h ∈ s.ready_queue := by rw [hready]; exact List.mem_cons_self _ _
  obtain ⟨ph, hphmem, hphpid, hpharr, hphrem, hphcomp⟩ := rq_mem h hhead
  have hrest_nodup : rest.Nodup := by
    rw [hready] at rq_nodup; exact (List.nodup_cons.mp rq_nodup).2
  have hnotin : h ∉ rest := by
    rw [hready] at rq_nodup; exact (List.nodup_cons.mp rq_nodup).1
  obtain ⟨w, hw⟩ := lookupProc_of_mem (s := s) ⟨ph, hphmem, hphpid⟩
  obtain ⟨hwmem, hwpid⟩ := lookupProc_spec _ _ _ hw
  have hwph : w = ph := List.inj_on_of_nodup_map nodup hwmem hphmem (by rw [hwpid, hphpid])
  subst hwph
  rw [dispatchAssign_eq_some hw]
  have hrestmem : ∀ r ∈ rest, ∃ p ∈ s.all_processes, p.pid = r ∧
      p.arrival_time ≤ s.current_time ∧ 0 < p.remaining_burst_time ∧
      p.completion_time = none := by
    intro r hr
    exact rq_mem r (by rw [hready]; exact List.mem_cons_of_mem _ hr)
  have hrne : ∀ r ∈ rest, r ≠ h := fun r hr he => hnotin (he ▸ hr)
  by_cases hstart : w.start_time = none
  · rw [if_pos hstart]
    have hgpid : ∀ p, (startUpdate s.current_time p).pid = p.pid := fun p => rfl
    refine ⟨⟨?_, ?_, ?_, ?_, ?_, ?_⟩, ?_⟩
    · -- nodup pids
      rw [updateProc_map_pid _ h _ hgpid]
      exact nodup
    · -- pInv for every process
      intro pr hpr
      rcases mem_updateProc_nodup (f := startUpdate s.current_time)
          nodup hwmem hwpid hpr with he | ⟨hmem, _⟩
      · subst he
        obtain ⟨hle, hnone, _, _⟩ := pinv w hwmem
        have hrem : w.remaining_burst_time = w.burst_time := hnone hstart
        refine ⟨hle, ?_, ?_, ?_⟩
        · intro hcontra; exact absurd hcontra (by simp [startUpdate])
        · intro st hst
          have hstt : st = s.current_time := by
            simp only [startUpdate] at hst
            exact (Option.some.inj hst).symm
          subst hstt
          refine ⟨hpharr, ?_⟩
          show s.current_time + (w.burst_time - w.remaining_burst_time) ≤ s.current_time
          omega
        · intro c hc
          simp only [startUpdate] at hc
          rw [hphcomp] at hc
          cases hc
      · exact pInv_mono (pinv pr hmem) (le_refl _)
    · exact hrest_nodup
    · -- ready-queue membership facts
      intro r hr
      obtain ⟨p, hp, hppid, hparr, hprem, hpcomp⟩ := hrestmem r hr
      refine ⟨p, mem_updateProc_other hp ?_, hppid, hparr, hprem, hpcomp⟩
      simp [hppid, hrne r hr]
    · -- the occupant is not in the ready queue
      intro r hr hcontra
      exact hrne r hr (Option.some.inj hcontra).symm
    · -- completed counter
      have hcount := countP_update_of_nodup (fun p => p.completion_time.isSome) h
        (startUpdate s.current_time) s.all_processes nodup w hw
      show s.completed_count = _
      have hproceq : (updateProc { s with current_running_process := some h, ready_queue := rest } h (startUpdate s.current_time)).all_processes = s.all_processes.map (fun p => if p.pid == h then startUpdate s.current_time p else p) := rfl
      rw [hproceq]
      have hsame : ((startUpdate s.current_time w).completion_time.isSome) =
          w.completion_time.isSome := rfl
      simp only [hsame] at hcount
      omega
    · -- occupant facts
      intro pid' hpid'
      have hpe : pid' = h := by
        simp only [updateProc_running] at hpid'
        exact (Option.some.inj hpid').symm
      subst hpe
      refine ⟨startUpdate s.current_time w, mem_updateProc_self hwmem hwpid, hwpid, ?_, ?_, ?_, ?_⟩
      · simpa [startUpdate] using hphrem
      · simpa [startUpdate] using hphcomp
      · simp [startUpdate]
      · simpa [startUpdate] using hpharr
  · rw [if_neg hstart]
    refine ⟨⟨nodup, fun p hp => pinv p hp, hrest_nodup, ?_, ?_, count⟩, ?_⟩
    · intro r hr
      simpa using hrestmem r hr
    · intro r hr hcontra
      exact hrne r hr (Option.some.inj hcontra).symm
    · intro pid' hpid'
      have hpe : pid' = h := (Option.some.inj hpid').symm
      subst hpe
      exact ⟨w, hwmem, hwpid, hphrem, hphcomp, hstart, hpharr⟩

lemma lookupProc_eq_of_nodup {s : Scheduler} {h : Nat} {w : Proc}
    (nodup : (s.all_processes.map (·.pid)).Nodup)
    (hwmem : w ∈ s.all_processes) (hwpid : w.pid = h) :
    lookupProc s h = some w := by
  obtain ⟨u, hu⟩ := lookupProc_of_mem (s := s) ⟨w, hwmem, hwpid⟩
  obtain ⟨humem, hupid⟩ := lookupProc_spec _ _ _ hu
  have : u = w := List.inj_on_of_nodup_map nodup humem hwmem (by rw [hupid, hwpid])
  rw [hu, this]

lemma FInv_addArrivals {s : Scheduler} (h : FInv s) : FInv (addArrivals s) :=
  ⟨CoreInv_addArrivals h.1, runInv_addArrivals h.2⟩

/-- The invariant holding while a process occupies the CPU mid-slice (its
remaining burst may be 0 right before the completion check). -/
structure MidInv (h : Nat) (s : Scheduler) : Prop where
  core : CoreInv s
  occupant : ∃ p ∈ s.all_processes, p.pid = h ∧ p.completion_time = none ∧
      p.start_time ≠ none ∧ p.arrival_time ≤ s.current_time
  isrun : s.current_running_process = some h

lemma MidInv_addArrivals {h : Nat} {s : Scheduler} (hM : MidInv h s) :
    MidInv h (addArrivals s) := by
  obtain ⟨core, occupant, isrun⟩ := hM
  refine ⟨CoreInv_addArrivals core, ?_, by simpa using isrun⟩
  obtain ⟨p, hp, h1, h2, h3, h4⟩ := occupant
  exact ⟨p, by simpa using hp, h1, h2, h3, by simpa using h4⟩

/-- The decrement applied by one execution tick. -/
def decRem (p : Proc) : Proc :=
  { p with remaining_burst_time := p.remaining_burst_time - 1 }

lemma tickExec_procs_eq (pid : Nat) (s : Scheduler) :
    (tickExec pid s).all_processes = (updateProc s pid decRem).all_processes := rfl

lemma lookupProc_tickExec {s : Scheduler} {h : Nat} {w : Proc}
    (hw : lookupProc s h = some w) :
    lookupProc (tickExec h s) h = some (decRem w) := by
  have : lookupProc (tickExec h s) h = lookupProc (updateProc s h decRem) h := rfl
  rw [this, lookupProc_updateProc s h decRem (fun p => rfl), hw]
  rfl

lemma MidInv_tickExec {h : Nat} {s : Scheduler} (hM : MidInv h s) :
    MidInv h (tickExec h s) := by
  obtain ⟨⟨nodup, pinv, rq_nodup, rq_mem, rq_run, count⟩, occupant, isrun⟩ := hM
  obtain ⟨w, hwmem, hwpid, hwcomp, hwstart, hwarr⟩ := occupant
  obtain ⟨st, hst⟩ : ∃ st, w.start_time = some st := by
    cases hs : w.start_time with
    | none => exact absurd hs hwstart
    | some st => exact ⟨st, rfl⟩
  have hrne : ∀ r ∈ s.ready_queue, r ≠ h := by
    intro r hr he
    exact rq_run r hr (by rw [isrun, he])
  have hdecpid : ∀ p, (decRem p).pid = p.pid := fun p => rfl
  refine ⟨⟨?_, ?_, ?_, ?_, ?_, ?_⟩, ?_, ?_⟩
  · rw [tickExec_procs_eq, updateProc_map_pid _ h decRem hdecpid]
    exact nodup
  · -- pInv for every process after the tick
    intro pr hpr
    rw [tickExec_procs_eq] at hpr
    rcases mem_updateProc_nodup (f := decRem) nodup hwmem hwpid hpr with he | ⟨hmem, _⟩
    · subst he
      obtain ⟨hle, _, hsome, _⟩ := pinv w hwmem
      obtain ⟨harr, hbound⟩ := hsome st hst
      refine ⟨by simp [decRem]; omega, ?_, ?_, ?_⟩
      · intro hcontra
        simp only [decRem] at hcontra
        exact absurd hcontra hwstart
      · intro st' hst'
        simp only [decRem] at hst'
        rw [hst] at hst'
        obtain rfl : st = st' := Option.some.inj hst'
        refine ⟨harr, ?_⟩
        show st + (w.burst_time - (w.remaining_burst_time - 1)) ≤ s.current_time + 1
        simp only [tickExec_time] at *
        omega
      · intro c hc
        simp only [decRem] at hc
        rw [hwcomp] at hc
        cases hc
    · exact pInv_mono (pinv pr hmem) (by simp)
  · simpa using rq_nodup
  · intro r hr
    simp only [tickExec_ready] at hr
    obtain ⟨p, hp, hppid, hparr, hprem, hpcomp⟩ := rq_mem r hr
    refine ⟨p, ?_, hppid, by simp; omega, hprem, hpcomp⟩
    rw [tickExec_procs_eq]
    exact mem_updateProc_other hp (by simp [hppid, hrne r hr])
  · intro r hr
    simp only [tickExec_ready] at hr
    simp only [tickExec_running]
    exact rq_run r hr
  · have hw : lookupProc s h = some w := lookupProc_eq_of_nodup nodup hwmem hwpid
    have hcount := countP_update_of_nodup (fun p => p.completion_time.isSome) h decRem
      s.all_processes nodup w hw
    have hsame : ((decRem w).completion_time.isSome) = w.completion_time.isSome := rfl
    simp only [hsame] at hcount
    show s.completed_count = _
    rw [tickExec_procs_eq]
    have hproceq : (updateProc s h decRem).all_processes =
        s.all_processes.map (fun p => if p.pid == h then decRem p else p) := rfl
    rw [hproceq]
    omega
  · refine ⟨decRem w, ?_, by simp [decRem, hwpid], by simp [decRem, hwcomp], ?_, ?_⟩
    · rw [tickExec_procs_eq]
      exact mem_updateProc_self hwmem hwpid
    · simp only [decRem]
      exact hwstart
    · simp only [decRem, tickExec_time]
      omega
  · simpa using isrun

/-- The completion update applied to the occupant when it finishes. -/
def finishUpdate (t : Nat) (p : Proc) : Proc :=
  calculate_metrics { p with completion_time := some t }

lemma completeProc_procs_eq (pid : Nat) (s : Scheduler) :
    (completeProc pid s).all_processes =
      (updateProc s pid (finishUpdate s.current_time)).all_processes := rfl

lemma finishUpdate_eq {t : Nat} {p : Proc} {st : Nat} (hst : p.start_time = some st) :
    finishUpdate t p =
      { p with completion_time := some t,
               turnaround_time := (t : Int) - (p.arrival_time : Int),
               waiting_time := (t : Int) - (p.arrival_time : Int) - (p.burst_time : Int) } := by
  unfold finishUpdate
  rw [calculate_metrics_of_some _ t st rfl (by simpa using hst)]

lemma CoreInv_completeProc {h : Nat} {s : Scheduler} {w : Proc}
    (hM : MidInv h s) (hw : lookupProc s h = some w)
    (hrem : w.remaining_burst_time = 0) :
    CoreInv (completeProc h s) := by
  obtain ⟨⟨nodup, pinv, rq_nodup, rq_mem, rq_run, count⟩, occupant, isrun⟩ := hM
  obtain ⟨wmem, wpid⟩ := lookupProc_spec _ _ _ hw
  obtain ⟨p0, hp0mem, hp0pid, hp0comp, hp0start, _⟩ := occupant
  have hwp0 : w = p0 := List.inj_on_of_nodup_map nodup wmem hp0mem (by rw [wpid, hp0pid])
  subst hwp0
  obtain ⟨st, hst⟩ : ∃ st, w.start_time = some st := by
    cases hs : w.start_time with
    | none => exact absurd hs hp0start
    | some st => exact ⟨st, rfl⟩
  obtain ⟨hle, _, hsome, _⟩ := pinv w wmem
  obtain ⟨harr, hbound⟩ := hsome st hst
  have hstburst : st + w.burst_time ≤ s.current_time := by omega
  have hfinpid : ∀ p, (finishUpdate s.current_time p).pid = p.pid := by
    intro p
    unfold finishUpdate
    rw [calculate_metrics_pid]
  have hrne : ∀ r ∈ s.ready_queue, r ≠ h := by
    intro r hr he
    exact rq_run r hr (by rw [isrun, he])
  have hfw : finishUpdate s.current_time w =
      { w with completion_time := some s.current_time,
               turnaround_time := (s.current_time : Int) - (w.arrival_time : Int),
               waiting_time := (s.current_time : Int) - (w.arrival_time : Int) - (w.burst_time : Int) } :=
    finishUpdate_eq hst
  refine ⟨?_, ?_, ?_, ?_, ?_, ?_⟩
  · rw [completeProc_procs_eq, updateProc_map_pid _ h _ hfinpid]
    exact nodup
  · intro pr hpr
    rw [completeProc_procs_eq] at hpr
    rcases mem_updateProc_nodup (f := finishUpdate s.current_time)
        nodup wmem wpid hpr with he | ⟨hmem, _⟩
    · subst he
      rw [hfw]
      refine ⟨by simpa using hle, ?_, ?_, ?_⟩
      · intro hcontra
        simp only [] at hcontra
        rw [hst] at hcontra
        cases hcontra
      · intro st' hst'
        simp only [] at hst'
        rw [hst] at hst'
        obtain rfl : st = st' := Option.some.inj hst'
        constructor
        · simpa using harr
        · show st + (w.burst_time - w.remaining_burst_time) ≤ (completeProc h s).current_time
          simp only [completeProc_time]
          omega
      · intro c hc
        simp only [] at hc
        obtain rfl : s.current_time = c := Option.some.inj hc
        refine ⟨by simpa using hrem, ⟨st, by simpa using hst, ?_⟩, ?_, rfl, rfl⟩
        · show st + w.burst_time ≤ s.current_time
          omega
        · show s.current_time ≤ (completeProc h s).current_time
          simp only [completeProc_time]
          omega
    · exact pInv_mono (pinv pr hmem) (by simp)
  · simpa using rq_nodup
  · intro r hr
    simp only [completeProc_ready] at hr
    obtain ⟨p, hp, hppid, hparr, hprem, hpcomp⟩ := rq_mem r hr
    refine ⟨p, ?_, hppid, by simpa using hparr, hprem, hpcomp⟩
    rw [completeProc_procs_eq]
    exact mem_updateProc_other hp (by simp [hppid, hrne r hr])
  · intro r hr
    simp only [completeProc_running]
    exact fun hcontra => Option.noConfusion hcontra
  · have hcount := countP_update_of_nodup (fun p => p.completion_time.isSome) h
      (finishUpdate s.current_time) s.all_processes nodup w hw
    have h1 : w.completion_time.isSome = false := by rw [hp0comp]; rfl
    have h2 : (finishUpdate s.current_time w).completion_time.isSome = true := by
      rw [hfw]
      rfl
    simp only [h1, h2] at hcount
    have e1 : (if false = true then 1 else 0) = 0 := rfl
    have e2 : (if True then 1 else 0) = 1 := rfl
    rw [e1, e2] at hcount
    show s.completed_count + 1 = _
    rw [completeProc_procs_eq]
    have hproceq : (updateProc s h (finishUpdate s.current_time)).all_processes =
        s.all_processes.map
          (fun p => if p.pid == h then finishUpdate s.current_time p else p) := rfl
    rw [hproceq]
    omega

lemma FInv_idleTick {s : Scheduler} (hF : FInv s) : FInv (idleTick s) := by
  obtain ⟨⟨nodup, pinv, rq_nodup, rq_mem, rq_run, count⟩, run⟩ := hF
  refine ⟨⟨by simpa using nodup, ?_, by simpa using rq_nodup, ?_, ?_, by simpa using count⟩, ?_⟩
  · intro p hp
    exact pInv_mono (pinv p (by simpa using hp)) (by simp)
  · intro r hr
    obtain ⟨p, hp, h1, h2, h3, h4⟩ := rq_mem r (by simpa using hr)
    exact ⟨p, by simpa using hp, h1, by simp; omega, h3, h4⟩
  · intro r hr
    simpa using rq_run r (by simpa using hr)
  · intro pid hpid
    obtain ⟨p, hp, h1, h2, h3, h4, h5⟩ := run pid (by simpa using hpid)
    exact ⟨p, by simpa using hp, h1, h2, h3, h4, by simp; omega⟩

lemma FInv_of_MidInv_rem_pos {h : Nat} {s : Scheduler} {w : Proc}
    (hM : MidInv h s) (hw : lookupProc s h = some w)
    (hrem : 0 < w.remaining_burst_time) : FInv s := by
  obtain ⟨core, occupant, isrun⟩ := hM
  obtain ⟨wmem, wpid⟩ := lookupProc_spec _ _ _ hw
  obtain ⟨p0, hp0mem, hp0pid, hp0comp, hp0start, hp0arr⟩ := occupant
  have hwp0 : w = p0 :=
    List.inj_on_of_nodup_map core.nodup wmem hp0mem (by rw [wpid, hp0pid])
  subst hwp0
  refine ⟨core, ?_⟩
  intro pid hpid
  rw [isrun] at hpid
  obtain rfl : h = pid := Option.some.inj hpid
  exact ⟨w, wmem, wpid, hrem, hp0comp, hp0start, hp0arr⟩

lemma MidInv_of_FInv {s : Scheduler} {h : Nat} (hF : FInv s)
    (hrun : s.current_running_process = some h) : MidInv h s := by
  obtain ⟨core, run⟩ := hF
  obtain ⟨p, hp, h1, _, h3, h4, h5⟩ := run h hrun
  exact ⟨core, ⟨p, hp, h1, h3, h4, h5⟩, hrun⟩

lemma FInv_fcfsExec {s : Scheduler} (hF : FInv s) : FInv (fcfsExec s) := by
  cases hrun : s.current_running_process with
  | none =>
      rw [fcfsExec_of_none _ hrun]
      exact FInv_idleTick hF
  | some pid =>
      rw [fcfsExec_of_running _ pid hrun]
      have hM : MidInv pid s := MidInv_of_FInv hF hrun
      have hM3 : MidInv pid (tickExec pid s) := MidInv_tickExec hM
      obtain ⟨p0, hp0mem, hp0pid, _, _, _⟩ := hM3.occupant
      have hlk : lookupProc (tickExec pid s) pid = some p0 :=
        lookupProc_eq_of_nodup hM3.core.nodup hp0mem hp0pid
      by_cases hc : (lookupProc (tickExec pid s) pid).any
          (fun q => q.remaining_burst_time == 0) = true
      · rw [if_pos hc]
        rw [hlk] at hc
        have hrem0 : p0.remaining_burst_time = 0 := by simpa using hc
        refine ⟨CoreInv_completeProc hM3 hlk hrem0, ?_⟩
        intro pid' hpid'
        rw [completeProc_running] at hpid'
        cases hpid'
      · rw [if_neg hc]
        rw [hlk] at hc
        have hrem : 0 < p0.remaining_burst_time := by
          have hne : ¬ (p0.remaining_burst_time == 0) = true := by
            simpa [Option.any] using hc
          have : p0.remaining_burst_time ≠ 0 := by simpa using hne
          omega
        exact FInv_of_MidInv_rem_pos hM3 hlk hrem

lemma FInv_dispatchStep {s : Scheduler} (hF : FInv s) : FInv (dispatchStep s) := by
  unfold dispatchStep
  split
  · next heq1 heq2 => exact FInv_dispatchAssign hF heq2
  · exact hF

lemma FInv_fcfsStep {s : Scheduler} (hF : FInv s) : FInv (fcfsStep s) :=
  FInv_addArrivals (FInv_fcfsExec (FInv_dispatchStep (FInv_addArrivals hF)))

lemma resetProc_eq (p : Proc) : resetProc p = mkProcess p.pid p.arrival_time p.burst_time := rfl

lemma FInv_reset {s : Scheduler}
    (hnd : (s.all_processes.map (·.pid)).Nodup)
    (hrun : s.current_running_process = none) : FInv (resetForRun s) := by
  refine ⟨⟨?_, ?_, ?_, ?_, ?_, ?_⟩, ?_⟩
  · show ((s.all_processes.map resetProc).map (·.pid)).Nodup
    rw [List.map_map]
    have : ((·.pid) ∘ resetProc : Proc → Nat) = (·.pid) := rfl
    rw [this]
    exact hnd
  · intro p hp
    obtain ⟨q, _, rfl⟩ := List.mem_map.mp hp
    refine ⟨le_refl _, fun _ => rfl, ?_, ?_⟩
    · intro st hst
      simp [resetProc] at hst
    · intro c hc
      simp [resetProc] at hc
  · exact List.nodup_nil
  · intro r hr
    cases hr
  · intro r hr
    cases hr
  · show (0 : Nat) = _
    have : ∀ q ∈ s.all_processes.map resetProc, (q.completion_time.isSome) = false := by
      intro q hq
      obtain ⟨p, _, rfl⟩ := List.mem_map.mp hq
      rfl
    rw [List.countP_eq_zero.mpr ?_]
    intro q hq
    rw [this q hq]
    exact Bool.false_ne_true
  · intro pid hpid
    rw [show (resetForRun s).current_running_process = s.current_running_process from rfl, hrun] at hpid
    cases hpid

lemma fcfsLoop_done : ∀ (fuel : Nat) (s f : Scheduler), fcfsLoop fuel s = some f →
    f.all_processes.length ≤ f.completed_count := by
  intro fuel
  induction fuel with
  | zero =>
      intro s f hf
      unfold fcfsLoop at hf
      split at hf
      · exact absurd hf (by simp)
      · cases hf; omega
  | succ n ih =>
      intro s f hf
      unfold fcfsLoop at hf
      split at hf
      · exact ih _ f hf
      · cases hf; omega

lemma FInv_exit_running_none {f : Scheduler} (hF : FInv f)
    (hdone : f.all_processes.length ≤ f.completed_count) :
    f.current_running_process = none := by
  obtain ⟨core, run⟩ := hF
  cases hrun : f.current_running_process with
  | none => rfl
  | some pid =>
      obtain ⟨p, hp, _, _, hcomp, _, _⟩ := run pid hrun
      have hle : f.all_processes.countP (fun p => p.completion_time.isSome) ≤
          f.all_processes.length := List.countP_le_length _
      have hall : ∀ q ∈ f.all_processes, (q.completion_time.isSome) = true := by
        have hcnt := core.count
        have heq : f.all_processes.countP (fun p => p.completion_time.isSome) =
            f.all_processes.length := by omega
        exact fun q hq => List.countP_eq_length.mp heq q hq
      have := hall p hp
      rw [hcomp] at this
      cases this

/-- Round-Robin loop-top invariant: the FCFS state invariant plus a free
CPU (the RR body always releases the CPU at the end of an iteration). -/
def RInv (s : Scheduler) : Prop := FInv s ∧ s.current_running_process = none

lemma MidInv_rrSlice {h : Nat} : ∀ (k : Nat) {s : Scheduler},
    MidInv h s → MidInv h (rrSlice h k s)
  | 0, _, hM => hM
  | k + 1, _, hM => MidInv_rrSlice k (MidInv_addArrivals (MidInv_tickExec hM))

lemma RInv_idleTick {s : Scheduler} (hR : RInv s) : RInv (idleTick s) :=
  ⟨FInv_idleTick hR.1, by simpa using hR.2⟩

lemma RInv_idleTicks : ∀ (k : Nat) {s : Scheduler}, RInv s → RInv (idleTicks k s)
  | 0, _, hR => hR
  | k + 1, _, hR => RInv_idleTicks k (RInv_idleTick hR)

lemma RInv_rrBody {s : Scheduler} (q : Nat) (hR : RInv s) : RInv (rrBody q s) := by
  obtain ⟨hF, _⟩ := hR
  have hFA : FInv (dispatchStep (addArrivals s)) := FInv_dispatchStep (FInv_addArrivals hF)
  unfold rrBody
  dsimp only
  split
  · next pid heq =>
    have hM : MidInv pid (dispatchStep (addArrivals s)) := MidInv_of_FInv hFA heq
    have hMC : MidInv pid (rrSlice pid
        (min (((lookupProc (dispatchStep (addArrivals s)) pid).map
          (·.remaining_burst_time)).getD 0) q) (dispatchStep (addArrivals s))) :=
      MidInv_rrSlice _ hM
    obtain ⟨p0, hp0mem, hp0pid, hp0comp, hp0start, hp0arr⟩ := hMC.occupant
    have hlk := lookupProc_eq_of_nodup hMC.core.nodup hp0mem hp0pid
    split
    · next hc =>
      rw [hlk] at hc
      have hrem0 : p0.remaining_burst_time = 0 := by simpa using hc
      refine ⟨⟨CoreInv_completeProc hMC hlk hrem0, ?_⟩, rfl⟩
      intro pid' hpid'
      rw [completeProc_running] at hpid'
      cases hpid'
    · next hc =>
      rw [hlk] at hc
      have hrem : 0 < p0.remaining_burst_time := by
        have : p0.remaining_burst_time ≠ 0 := by simpa using hc
        omega
      obtain ⟨⟨nodup, pinv, rq_nodup, rq_mem, rq_run, count⟩, occupant, isrun⟩ := hMC
      have hnotin : pid ∉ (rrSlice pid
          (min (((lookupProc (dispatchStep (addArrivals s)) pid).map
            (·.remaining_burst_time)).getD 0) q)
          (dispatchStep (addArrivals s))).ready_queue := by
        intro hin
        exact rq_run pid hin isrun
      refine ⟨⟨⟨nodup, pinv, ?_, ?_, ?_, count⟩, ?_⟩, rfl⟩
      · rw [List.nodup_append]
        refine ⟨rq_nodup, List.nodup_singleton _, ?_⟩
        intro r hr hr'
        rw [List.mem_singleton] at hr'
        subst hr'
        exact hnotin hr
      · intro r hr
        rcases List.mem_append.mp hr with hold | hnew
        · exact rq_mem r hold
        · rw [List.mem_singleton] at hnew
          subst hnew
          exact ⟨p0, hp0mem, hp0pid, hp0arr, hrem, hp0comp⟩
      · intro r _ hcontra
        cases hcontra
      · intro pid' hpid'
        cases hpid'
  · next heq =>
    exact ⟨FInv_idleTick hFA, by simpa using heq⟩

lemma RInv_rrStep {s : Scheduler} (q : Nat) (hR : RInv s) : RInv (rrStep q s).1 := by
  rcases rrStep_fst_cases q s with hc | ⟨k, hc⟩
  · rw [hc]; exact RInv_rrBody q hR
  · rw [hc]; exact RInv_idleTicks k (RInv_rrBody q hR)

/-- The per-process metric facts claimed for completed processes. -/
def MetricsOK (f : Scheduler) : Prop :=
  ∀ p ∈ f.all_processes, ∀ c, p.completion_time = some c →
    ∃ st, p.start_time = some st ∧ p.arrival_time ≤ st ∧ st ≤ c ∧
      p.turnaround_time = (c : Int) - (p.arrival_time : Int) ∧
      p.waiting_time = p.turnaround_time - (p.burst_time : Int) ∧
      0 ≤ p.waiting_time

lemma MetricsOK_of_CoreInv {f : Scheduler} (hc : CoreInv f) : MetricsOK f := by
  intro p hp c hcomp
  obtain ⟨_, _, hsome, hcompc⟩ := hc.pinv p hp
  obtain ⟨hrem0, ⟨st, hst, hstb⟩, hcle, hta, hwait⟩ := hcompc c hcomp
  obtain ⟨harr, _⟩ := hsome st hst
  refine ⟨st, hst, harr, by omega, hta, hwait, ?_⟩
  rw [hwait, hta]
  have h1 : (st : Int) + (p.burst_time : Int) ≤ (c : Int) := by exact_mod_cast hstb
  have h2 : (p.arrival_time : Int) ≤ (st : Int) := by exact_mod_cast harr
  omega

lemma reset_running (s : Scheduler) :
    (resetForRun s).current_running_process = s.current_running_process := rfl

/-- C8: for every registered process set and either run method, every
process whose completion time is set on return satisfies
completion ≥ start ≥ arrival, turnaround = completion − arrival,
waiting = turnaround − burst, and waiting ≥ 0. -/
theorem c8_completed_process_metrics (s : Scheduler) (q : Nat)
    (hnd : (s.all_processes.map (·.pid)).Nodup)
    (hrun : s.current_running_process = none) :
    (∀ f, run_fcfs s = some f → MetricsOK f) ∧
    (∀ f, run_round_robin q s = some f → MetricsOK f) := by
  constructor
  · intro f hf
    have hF := fcfsLoop_inv (fun _ h => FInv_fcfsStep h) _ _ f hf (FInv_reset hnd hrun)
    exact MetricsOK_of_CoreInv hF.1
  · intro f hf
    have hR0 : RInv (resetForRun s) := ⟨FInv_reset hnd hrun, by rw [reset_running]; exact hrun⟩
    have hR := rrLoop_inv (fun _ h => RInv_rrStep q h) _ _ f hf hR0
    exact MetricsOK_of_CoreInv hR.1.1

def w8Engine : Scheduler :=
  add_process (add_process initScheduler (mkProcess 1 0 2)) (mkProcess 2 1 2)

/-- Witness for C8 at a concrete two-process engine, for both run
methods. -/
theorem c8_completed_process_metrics_witness :
    ((w8Engine.all_processes.map (·.pid)).Nodup ∧
      w8Engine.current_running_process = none) ∧
    (∃ f, run_fcfs w8Engine = some f ∧ MetricsOK f) ∧
    (∃ f, run_round_robin 1 w8Engine = some f ∧ MetricsOK f) :=
  ⟨⟨by decide, rfl⟩,
    ⟨_, rfl, (c8_completed_process_metrics w8Engine 1 (by decide) rfl).1 _ rfl⟩,
    ⟨_, rfl, (c8_completed_process_metrics w8Engine 1 (by decide) rfl).2 _ rfl⟩⟩

/-- C10: the reset at the start of the run methods does not touch the
occupant slot, and on every return path of both run methods the occupant
slot is `None` (so a subsequent run on the same engine starts with a free
CPU). -/
theorem c10_cpu_free_on_return (s : Scheduler) (q : Nat)
    (hnd : (s.all_processes.map (·.pid)).Nodup)
    (hrun : s.current_running_process = none) :
    (∀ s' : Scheduler,
      (resetForRun s').current_running_process = s'.current_running_process) ∧
    (∀ f, run_fcfs s = some f → f.current_running_process = none) ∧
    (∀ f, run_round_robin q s = some f → f.current_running_process = none) := by
  refine ⟨fun s' => rfl, ?_, ?_⟩
  · intro f hf
    exact FInv_exit_running_none
      (fcfsLoop_inv (fun _ h => FInv_fcfsStep h) _ _ f hf (FInv_reset hnd hrun))
      (fcfsLoop_done _ _ f hf)
  · intro f hf
    have hR0 : RInv (resetForRun s) := ⟨FInv_reset hnd hrun, by rw [reset_running]; exact hrun⟩
    exact (rrLoop_inv (fun _ h => RInv_rrStep q h) _ _ f hf hR0).2

def w10Engine : Scheduler :=
  add_process (add_process initScheduler (mkProcess 1 0 1)) (mkProcess 2 2 1)

/-- Witness for C10 at a concrete engine, for both run methods. -/
theorem c10_cpu_free_on_return_witness :
    ((w10Engine.all_processes.map (·.pid)).Nodup ∧
      w10Engine.current_running_process = none) ∧
    (∃ f, run_fcfs w10Engine = some f ∧ f.current_running_process = none) ∧
    (∃ f, run_round_robin 3 w10Engine = some f ∧ f.current_running_process = none) :=
  ⟨⟨by decide, rfl⟩,
    ⟨_, rfl, (c10_cpu_free_on_return w10Engine 3 (by decide) rfl).2.1 _ rfl⟩,
    ⟨_, rfl, (c10_cpu_free_on_return w10Engine 3 (by decide) rfl).2.2 _ rfl⟩⟩

/-! ### C6: rerunning with a different policy is order-independent -/

/-- The static (creation-time) attributes of the registered set, in
registration order. -/
def staticView (s : Scheduler) : List (Nat × Nat × Nat) :=
  s.all_processes.map (fun p => (p.pid, p.arrival_time, p.burst_time))

lemma calculate_metrics_arrival (p : Proc) :
    (calculate_metrics p).arrival_time = p.arrival_time := by
  unfold calculate_metrics
  split <;> rfl

lemma calculate_metrics_burst (p : Proc) :
    (calculate_metrics p).burst_time = p.burst_time := by
  unfold calculate_metrics
  split <;> rfl

lemma staticView_updateProc (s : Scheduler) (pid : Nat) (f : Proc → Proc)
    (hf : ∀ p, (f p).pid = p.pid ∧ (f p).arrival_time = p.arrival_time ∧
      (f p).burst_time = p.burst_time) :
    staticView (updateProc s pid f) = staticView s := by
  unfold staticView updateProc
  simp only [List.map_map]
  refine List.map_congr_left (fun a _ => ?_)
  simp only [Function.comp]
  split
  · obtain ⟨h1, h2, h3⟩ := hf a
    rw [h1, h2, h3]
  · rfl

lemma staticView_startUpdate (s : Scheduler) (pid : Nat) (t : Nat) :
    staticView (updateProc s pid (startUpdate t)) = staticView s :=
  staticView_updateProc s pid _ (fun _ => ⟨rfl, rfl, rfl⟩)

lemma staticView_decRem (s : Scheduler) (pid : Nat) :
    staticView (updateProc s pid decRem) = staticView s :=
  staticView_updateProc s pid _ (fun _ => ⟨rfl, rfl, rfl⟩)

lemma staticView_finishUpdate (s : Scheduler) (pid : Nat) (t : Nat) :
    staticView (updateProc s pid (finishUpdate t)) = staticView s :=
  staticView_updateProc s pid _ (fun _ =>
    ⟨calculate_metrics_pid _, calculate_metrics_arrival _, calculate_metrics_burst _⟩)

lemma staticView_tickExec (pid : Nat) (s : Scheduler) :
    staticView (tickExec pid s) = staticView s := by
  have : staticView (tickExec pid s) = staticView (updateProc s pid decRem) := rfl
  rw [this, staticView_decRem]

lemma staticView_completeProc (pid : Nat) (s : Scheduler) :
    staticView (completeProc pid s) = staticView s := by
  have : staticView (completeProc pid s) =
      staticView (updateProc s pid (finishUpdate s.current_time)) := rfl
  rw [this, staticView_finishUpdate]

lemma staticView_addArrivals (s : Scheduler) :
    staticView (addArrivals s) = staticView s := rfl

lemma staticView_idleTick (s : Scheduler) :
    staticView (idleTick s) = staticView s := rfl

lemma staticView_dispatchAssign (pid : Nat) (rest : List Nat) (s : Scheduler) :
    staticView (dispatchAssign pid rest s) = staticView s := by
  cases hl : lookupProc s pid with
  | some w =>
      rw [dispatchAssign_eq_some hl]
      split
      · have h1 : staticView (updateProc { s with current_running_process := some pid, ready_queue := rest } pid (startUpdate s.current_time)) = staticView { s with current_running_process := some pid, ready_queue := rest } := staticView_startUpdate _ _ _
        rw [h1]
        rfl
      · rfl
  | none =>
      rw [dispatchAssign_eq_none hl]
      rfl

lemma staticView_dispatchStep (s : Scheduler) :
    staticView (dispatchStep s) = staticView s := by
  unfold dispatchStep
  split
  · exact staticView_dispatchAssign _ _ _
  · rfl

lemma staticView_fcfsExec (s : Scheduler) : staticView (fcfsExec s) = staticView s := by
  cases hrun : s.current_running_process with
  | none => rw [fcfsExec_of_none _ hrun, staticView_idleTick]
  | some pid =>
      rw [fcfsExec_of_running _ pid hrun]
      split
      · rw [staticView_completeProc, staticView_tickExec]
      · rw [staticView_tickExec]

lemma staticView_fcfsStep (s : Scheduler) : staticView (fcfsStep s) = staticView s := by
  unfold fcfsStep
  rw [staticView_addArrivals, staticView_fcfsExec, staticView_dispatchStep,
    staticView_addArrivals]

lemma staticView_reset (s : Scheduler) : staticView (resetForRun s) = staticView s := by
  unfold staticView resetForRun
  simp only [List.map_map]
  rfl

lemma map_resetProc_eq (s : Scheduler) :
    s.all_processes.map resetProc =
      (staticView s).map (fun x => mkProcess x.1 x.2.1 x.2.2) := by
  unfold staticView
  rw [List.map_map]
  rfl

lemma resetForRun_eq_of_static {s1 s2 : Scheduler}
    (hv : staticView s1 = staticView s2)
    (hr : s1.current_running_process = s2.current_running_process) :
    resetForRun s1 = resetForRun s2 := by
  unfold resetForRun
  have hm : s1.all_processes.map resetProc = s2.all_processes.map resetProc := by
    rw [map_resetProc_eq, map_resetProc_eq, hv]
  rw [hm, hr]

lemma fuelBound_eq_of_static {s1 s2 : Scheduler}
    (hv : staticView s1 = staticView s2) : fuelBound s1 = fuelBound s2 := by
  unfold fuelBound
  have hb : s1.all_processes.map (·.burst_time) = s2.all_processes.map (·.burst_time) := by
    have e1 : s1.all_processes.map (·.burst_time) = (staticView s1).map (fun x => x.2.2) := by
      unfold staticView; rw [List.map_map]; rfl
    have e2 : s2.all_processes.map (·.burst_time) = (staticView s2).map (fun x => x.2.2) := by
      unfold staticView; rw [List.map_map]; rfl
    rw [e1, e2, hv]
  have ha : s1.all_processes.map (·.arrival_time) = s2.all_processes.map (·.arrival_time) := by
    have e1 : s1.all_processes.map (·.arrival_time) = (staticView s1).map (fun x => x.2.1) := by
      unfold staticView; rw [List.map_map]; rfl
    have e2 : s2.all_processes.map (·.arrival_time) = (staticView s2).map (fun x => x.2.1) := by
      unfold staticView; rw [List.map_map]; rfl
    rw [e1, e2, hv]
  rw [hb, ha]

/-- C6: running FCFS and then Round Robin (any positive quantum) on the
same engine produces exactly the same final state as running Round Robin
alone on the engine as originally registered: repeated runs are
reproducible and order-independent. -/
theorem c6_rerun_order_independent (s : Scheduler) (q : Nat)
    (hnd : (s.all_processes.map (·.pid)).Nodup)
    (hrun : s.current_running_process = none) :
    ∀ s1, run_fcfs s = some s1 → run_round_robin q s1 = run_round_robin q s := by
  intro s1 hs1
  have hv : staticView s1 = staticView s := by
    have := fcfsLoop_inv (P := fun s' => staticView s' = staticView s)
      (fun s' h => by
        show staticView (fcfsStep s') = staticView s
        rw [staticView_fcfsStep]
        exact h) _ _ s1 hs1 (staticView_reset s)
    exact this
  have hrun1 : s1.current_running_process = none :=
    FInv_exit_running_none
      (fcfsLoop_inv (fun _ h => FInv_fcfsStep h) _ _ s1 hs1 (FInv_reset hnd hrun))
      (fcfsLoop_done _ _ s1 hs1)
  unfold run_round_robin
  rw [fuelBound_eq_of_static hv,
    resetForRun_eq_of_static hv (by rw [hrun1, hrun])]

def w6Engine : Scheduler :=
  add_process (add_process initScheduler (mkProcess 1 0 3)) (mkProcess 2 1 2)

/-- Witness for C6: FCFS then Round Robin on a concrete engine reproduces
the fresh Round-Robin result. -/
theorem c6_rerun_order_independent_witness :
    ((w6Engine.all_processes.map (·.pid)).Nodup ∧
      w6Engine.current_running_process = none) ∧
    (∃ s1, run_fcfs w6Engine = some s1 ∧
      run_round_robin 2 s1 = run_round_robin 2 w6Engine) :=
  ⟨⟨by decide, rfl⟩, ⟨_, rfl, c6_rerun_order_independent w6Engine 2 (by decide) rfl _ rfl⟩⟩

/-! ### C5: tick-by-tick vs direct-jump idle advancement -/

/-- Replacing the trace of a state. -/
def withG (s : Scheduler) (g : List (Nat × Nat × Nat)) : Scheduler :=
  { s with gantt_chart := g }

/-- The single-tick idle intervals covering `[t, t + d)`. -/
def unitIdles (t d : Nat) : List (Nat × Nat × Nat) :=
  (List.range d).map (fun i => (0, t + i, t + i + 1))

lemma addArrivals_withG (s : Scheduler) (g : List (Nat × Nat × Nat)) :
    addArrivals (withG s g) = withG (addArrivals s) g := rfl

lemma idleTick_withG (s : Scheduler) (g : List (Nat × Nat × Nat)) :
    idleTick (withG s g) = withG (idleTick s) (g ++ [(0, s.current_time, s.current_time + 1)]) := rfl

lemma idleJump_withG (n : Nat) (s : Scheduler) (g : List (Nat × Nat × Nat)) :
    idleJump n (withG s g) = withG (idleJump n s) (g ++ [(0, s.current_time, n)]) := rfl

lemma tickExec_withG (pid : Nat) (s : Scheduler) (g : List (Nat × Nat × Nat)) :
    tickExec pid (withG s g) =
      withG (tickExec pid s) (g ++ [(pid, s.current_time, s.current_time + 1)]) := rfl

lemma completeProc_withG (pid : Nat) (s : Scheduler) (g : List (Nat × Nat × Nat)) :
    completeProc pid (withG s g) = withG (completeProc pid s) g := rfl

lemma dispatchAssign_withG (pid : Nat) (rest : List Nat) (s : Scheduler)
    (g : List (Nat × Nat × Nat)) :
    dispatchAssign pid rest (withG s g) = withG (dispatchAssign pid rest s) g := by
  cases hl : lookupProc s pid with
  | some w =>
      have hl' : lookupProc (withG s g) pid = some w := hl
      rw [dispatchAssign_eq_some hl', dispatchAssign_eq_some hl]
      by_cases hst : w.start_time = none
      · rw [if_pos hst, if_pos hst]
        rfl
      · rw [if_neg hst, if_neg hst]
        rfl
  | none =>
      have hl' : lookupProc (withG s g) pid = none := hl
      rw [dispatchAssign_eq_none hl', dispatchAssign_eq_none hl]
      rfl

lemma dispatchStep_withG (s : Scheduler) (g : List (Nat × Nat × Nat)) :
    dispatchStep (withG s g) = withG (dispatchStep s) g := by
  obtain ⟨rq, ap, ct, it, crp, gc, cc⟩ := s
  cases crp with
  | some p => rfl
  | none =>
      cases rq with
      | nil => rfl
      | cons a l => exact dispatchAssign_withG a l _ g

/-- The single trace interval one FCFS execute-or-idle block appends. -/
def execTail (s : Scheduler) : List (Nat × Nat × Nat) :=
  match s.current_running_process with
  | some pid => [(pid, s.current_time, s.current_time + 1)]
  | none => [(0, s.current_time, s.current_time + 1)]

lemma execTail_withG (s : Scheduler) (g : List (Nat × Nat × Nat)) :
    execTail (withG s g) = execTail s := rfl

lemma fcfsExec_withG (s : Scheduler) (g : List (Nat × Nat × Nat)) :
    fcfsExec (withG s g) = withG (fcfsExec s) (g ++ execTail s) := by
  cases hr : s.current_running_process with
  | none =>
      have hr' : (withG s g).current_running_process = none := hr
      rw [fcfsExec_of_none _ hr, fcfsExec_of_none _ hr']
      unfold execTail
      rw [hr]
      rfl
  | some pid =>
      have hr' : (withG s g).current_running_process = some pid := hr
      rw [fcfsExec_of_running _ pid hr, fcfsExec_of_running _ pid hr']
      unfold execTail
      rw [hr]
      have ht : tickExec pid (withG s g) =
          withG (tickExec pid s) (g ++ [(pid, s.current_time, s.current_time + 1)]) := rfl
      rw [ht]
      have hlk : lookupProc (withG (tickExec pid s)
          (g ++ [(pid, s.current_time, s.current_time + 1)])) pid =
          lookupProc (tickExec pid s) pid := rfl
      rw [hlk]
      by_cases hc : (lookupProc (tickExec pid s) pid).any
          (fun q => q.remaining_burst_time == 0) = true
      · rw [if_pos hc, if_pos hc]
        rfl
      · rw [if_neg hc, if_neg hc]

lemma fcfsStep_withG (s : Scheduler) (g : List (Nat × Nat × Nat)) :
    fcfsStep (withG s g) =
      withG (fcfsStep s) (g ++ execTail (dispatchStep (addArrivals s))) := by
  unfold fcfsStep
  rw [addArrivals_withG, dispatchStep_withG, fcfsExec_withG, addArrivals_withG]

lemma withG_self (s : Scheduler) : withG s s.gantt_chart = s := rfl

lemma fcfsStep_gantt (s : Scheduler) :
    (fcfsStep s).gantt_chart =
      s.gantt_chart ++ execTail (dispatchStep (addArrivals s)) := by
  have h := fcfsStep_withG s s.gantt_chart
  rw [withG_self] at h
  exact congrArg Scheduler.gantt_chart h

lemma expandIdle_append (g g2 : List (Nat × Nat × Nat)) :
    expandIdle (g ++ g2) = expandIdle g ++ expandIdle g2 := by
  unfold expandIdle
  rw [List.map_append, List.flatten_append]

lemma expandI_unit (p a : Nat) : expandI (p, a, a + 1) = [(p, a, a + 1)] := by
  unfold expandI
  split
  · next hp =>
    simp only [] at hp
    subst hp
    have : a + 1 - a = 1 := by omega
    rw [this]
    rfl
  · rfl

lemma expandIdle_execTail (x : Scheduler) : expandIdle (execTail x) = execTail x := by
  unfold execTail
  cases x.current_running_process with
  | some pid =>
      show expandIdle [(pid, x.current_time, x.current_time + 1)] = _
      unfold expandIdle
      rw [List.map_singleton, expandI_unit]
      rfl
  | none =>
      show expandIdle [(0, x.current_time, x.current_time + 1)] = _
      unfold expandIdle
      rw [List.map_singleton, expandI_unit]
      rfl

lemma expandI_idle_interval (t n : Nat) : expandI (0, t, n) = unitIdles t (n - t) := rfl

lemma fcfsJumpExec_of_some (x : Scheduler) (pid : Nat)
    (h : x.current_running_process = some pid) : fcfsJumpExec x = fcfsExec x := by
  unfold fcfsJumpExec
  rw [h]

lemma fcfsJumpExec_of_none_none (x : Scheduler)
    (h : x.current_running_process = none) (h2 : nextArrival x = none) :
    fcfsJumpExec x = idleTick x := by
  unfold fcfsJumpExec
  rw [h, h2]

lemma fcfsJumpExec_of_none_some (x : Scheduler) (n : Nat)
    (h : x.current_running_process = none) (h2 : nextArrival x = some n) :
    fcfsJumpExec x = idleJump n x := by
  unfold fcfsJumpExec
  rw [h, h2]

lemma dispatchAssign_running (pid : Nat) (rest : List Nat) (s : Scheduler) :
    (dispatchAssign pid rest s).current_running_process = some pid := by
  cases hl : lookupProc s pid with
  | some w =>
      rw [dispatchAssign_eq_some hl]
      split
      · rfl
      · rfl
  | none =>
      rw [dispatchAssign_eq_none hl]

lemma schedExt {a b : Scheduler}
    (h1 : a.ready_queue = b.ready_queue)
    (h2 : a.all_processes = b.all_processes)
    (h3 : a.current_time = b.current_time)
    (h4 : a.cpu_idle_time = b.cpu_idle_time)
    (h5 : a.current_running_process = b.current_running_process)
    (h6 : a.gantt_chart = b.gantt_chart)
    (h7 : a.completed_count = b.completed_count) : a = b := by
  cases a
  cases b
  simp only [] at h1 h2 h3 h4 h5 h6 h7
  subst h1
  subst h2
  subst h3
  subst h4
  subst h5
  subst h6
  subst h7
  rfl

lemma dispatch_running_none_inv {s : Scheduler}
    (h : (dispatchStep s).current_running_process = none) :
    s.current_running_process = none ∧ s.ready_queue = [] ∧ dispatchStep s = s := by
  obtain ⟨rq, ap, ct, it, crp, gc, cc⟩ := s
  cases crp with
  | some p =>
      exact absurd h (by
        show (dispatchStep ⟨rq, ap, ct, it, some p, gc, cc⟩).current_running_process ≠ none
        intro hc
        have : (dispatchStep ⟨rq, ap, ct, it, some p, gc, cc⟩) =
            (⟨rq, ap, ct, it, some p, gc, cc⟩ : Scheduler) := rfl
        rw [this] at hc
        cases hc)
  | none =>
      cases rq with
      | nil => exact ⟨rfl, rfl, rfl⟩
      | cons a l =>
          exfalso
          have : (dispatchStep ⟨a :: l, ap, ct, it, none, gc, cc⟩) =
              dispatchAssign a l ⟨a :: l, ap, ct, it, none, gc, cc⟩ := rfl
          rw [this, dispatchAssign_running] at h
          cases h

lemma addArrivals_eq_self {u : Scheduler} (h : (addArrivals u).ready_queue = []) :
    addArrivals u = u := by
  have hready : u.ready_queue ++
      (sortByPid (u.all_processes.filter (arrivalCheck u))).map (·.pid) = [] := h
  have h1 : u.ready_queue = [] := by
    rcases List.append_eq_nil.mp hready with ⟨ha, _⟩
    exact ha
  refine schedExt ?_ rfl rfl rfl rfl rfl rfl
  show u.ready_queue ++ _ = u.ready_queue
  rw [hready, h1]

lemma filter_empty_of_add_empty {u : Scheduler} (h : (addArrivals u).ready_queue = []) :
    u.all_processes.filter (arrivalCheck u) = [] := by
  have hready : u.ready_queue ++
      (sortByPid (u.all_processes.filter (arrivalCheck u))).map (·.pid) = [] := h
  rcases List.append_eq_nil.mp hready with ⟨_, hb⟩
  have hsort : sortByPid (u.all_processes.filter (arrivalCheck u)) = [] :=
    List.map_eq_nil_iff.mp hb
  have hlen := congrArg List.length hsort
  rw [sortByPid, List.length_insertionSort] at hlen
  exact List.length_eq_zero.mp hlen

lemma foldl_min_le (l : List Nat) : ∀ (a : Nat),
    l.foldl min a ≤ a ∧ ∀ b ∈ l, l.foldl min a ≤ b := by
  induction l with
  | nil => intro a; exact ⟨le_refl a, fun b hb => absurd hb (List.not_mem_nil b)⟩
  | cons x xs ih =>
      intro a
      obtain ⟨h1, h2⟩ := ih (min a x)
      refine ⟨le_trans h1 (min_le_left a x), ?_⟩
      intro b hb
      rcases List.mem_cons.mp hb with rfl | hb'
      · exact le_trans h1 (min_le_right a b)
      · exact h2 b hb'

lemma foldl_min_mem (l : List Nat) : ∀ (a : Nat), l.foldl min a ∈ a :: l := by
  induction l with
  | nil => intro a; exact List.mem_singleton.mpr rfl
  | cons x xs ih =>
      intro a
      have h := ih (min a x)
      rw [List.foldl_cons]
      rcases List.mem_cons.mp h with he | hm
      · rcases le_total a x with hax | hxa
        · rw [he, min_eq_left hax]; exact List.mem_cons_self _ _
        · rw [he, min_eq_right hxa]
          exact List.mem_cons_of_mem _ (List.mem_cons_self _ _)
      · exact List.mem_cons_of_mem _ (List.mem_cons_of_mem _ hm)

lemma nextArrival_gt {s : Scheduler} {n : Nat} (h : nextArrival s = some n) :
    s.current_time < n := by
  unfold nextArrival at h
  split at h
  · cases h
  · next a rest heq =>
    obtain rfl : rest.foldl min a = n := Option.some.inj h
    have hmem := foldl_min_mem rest a
    have hall : ∀ b ∈ a :: rest, s.current_time < b := by
      intro b hb
      have : b ∈ (s.all_processes.filter (fun p =>
          decide (0 < p.remaining_burst_time) &&
          decide (s.current_time < p.arrival_time))).map (·.arrival_time) := by
        rw [heq]; exact hb
      obtain ⟨p, hp, hpe⟩ := List.mem_map.mp this
      have := List.of_mem_filter hp
      simp only [Bool.and_eq_true, decide_eq_true_eq] at this
      rw [← hpe]
      exact this.2
    exact hall _ hmem

lemma nextArrival_lb {s : Scheduler} {n : Nat} (h : nextArrival s = some n) :
    ∀ p ∈ s.all_processes, 0 < p.remaining_burst_time →
      s.current_time < p.arrival_time → n ≤ p.arrival_time := by
  intro p hp hrem harr
  unfold nextArrival at h
  split at h
  · next heq =>
    exfalso
    have hmem : p.arrival_time ∈ (s.all_processes.filter (fun q =>
        decide (0 < q.remaining_burst_time) &&
        decide (s.current_time < q.arrival_time))).map (·.arrival_time) :=
      List.mem_map.mpr ⟨p, List.mem_filter.mpr ⟨hp, by simp [hrem, harr]⟩, rfl⟩
    rw [heq] at hmem
    cases hmem
  · next a rest heq =>
    obtain rfl : rest.foldl min a = n := Option.some.inj h
    have hmem : p.arrival_time ∈ (s.all_processes.filter (fun q =>
        decide (0 < q.remaining_burst_time) &&
        decide (s.current_time < q.arrival_time))).map (·.arrival_time) :=
      List.mem_map.mpr ⟨p, List.mem_filter.mpr ⟨hp, by simp [hrem, harr]⟩, rfl⟩
    rw [heq] at hmem
    obtain ⟨h1, h2⟩ := foldl_min_le rest a
    rcases List.mem_cons.mp hmem with he | hm
    · rw [he]; exact h1
    · exact h2 _ hm

lemma no_admissible_spec {u : Scheduler} (h : (addArrivals u).ready_queue = [])
    (hrun : u.current_running_process = none) :
    ∀ p ∈ u.all_processes, 0 < p.remaining_burst_time →
      u.current_time < p.arrival_time := by
  intro p hp hrem
  have hfilter := filter_empty_of_add_empty h
  have hnot : arrivalCheck u p = false := by
    by_cases hc : arrivalCheck u p = true
    · exfalso
      have : p ∈ u.all_processes.filter (arrivalCheck u) := List.mem_filter.mpr ⟨hp, hc⟩
      rw [hfilter] at this
      cases this
    · exact Bool.not_eq_true _ ▸ (by simpa using hc)
  have h1 : u.ready_queue = [] := by
    have hready : u.ready_queue ++ _ = [] := h
    exact (List.append_eq_nil.mp hready).1
  unfold arrivalCheck at hnot
  simp only [h1, hrun, Bool.and_eq_true, decide_eq_true_eq] at hnot
  by_contra hcon
  push_neg at hcon
  have : p.arrival_time ≤ u.current_time := hcon
  simp [this, hrem] at hnot

lemma arrivalCheck_congr {s1 s2 : Scheduler} (p : Proc)
    (ht : s1.current_time = s2.current_time)
    (hr : s1.ready_queue = s2.ready_queue)
    (hn : s1.current_running_process = s2.current_running_process) :
    arrivalCheck s1 p = arrivalCheck s2 p := by
  unfold arrivalCheck
  rw [ht, hr, hn]

lemma addArrivals_ready_congr {s1 s2 : Scheduler}
    (hp : s1.all_processes = s2.all_processes)
    (ht : s1.current_time = s2.current_time)
    (hr : s1.ready_queue = s2.ready_queue)
    (hn : s1.current_running_process = s2.current_running_process) :
    (addArrivals s1).ready_queue = (addArrivals s2).ready_queue := by
  show s1.ready_queue ++ _ = s2.ready_queue ++ _
  rw [hr, hp, List.filter_congr (fun a _ => arrivalCheck_congr a ht hr hn)]

lemma addArrivals_eq_self_of_filter_empty {x : Scheduler}
    (hready : x.ready_queue = [])
    (hfilt : x.all_processes.filter (arrivalCheck x) = []) :
    addArrivals x = x := by
  refine schedExt ?_ rfl rfl rfl rfl rfl rfl
  show x.ready_queue ++ (sortByPid (x.all_processes.filter (arrivalCheck x))).map (·.pid)
      = x.ready_queue
  rw [hfilt, hready]
  rfl

lemma idleTick_filter_empty {u : Scheduler}
    (hlb : ∀ p ∈ u.all_processes, 0 < p.remaining_burst_time →
      u.current_time + 1 < p.arrival_time) :
    (idleTick u).all_processes.filter (arrivalCheck (idleTick u)) = [] := by
  rw [List.filter_eq_nil_iff]
  intro p hp
  simp only [idleTick_procs] at hp
  intro hc
  unfold arrivalCheck at hc
  simp only [idleTick_time, idleTick_ready, idleTick_running, Bool.and_eq_true,
    decide_eq_true_eq] at hc
  have h1 := hc.1.1.1
  have h2 := hc.1.1.2
  have := hlb p hp h2
  omega

lemma nextArrival_congr {s1 s2 : Scheduler}
    (hp : s1.all_processes = s2.all_processes)
    (hfilt : ∀ p ∈ s1.all_processes,
      (decide (0 < p.remaining_burst_time) && decide (s1.current_time < p.arrival_time)) =
      (decide (0 < p.remaining_burst_time) && decide (s2.current_time < p.arrival_time))) :
    nextArrival s1 = nextArrival s2 := by
  unfold nextArrival
  rw [List.filter_congr hfilt, hp]

lemma unitIdles_one (t : Nat) : unitIdles t 1 = [(0, t, t + 1)] := rfl

lemma unitIdles_succ (t k : Nat) :
    unitIdles t (k + 1) = (0, t, t + 1) :: unitIdles (t + 1) k := by
  unfold unitIdles
  rw [List.range_succ_eq_map, List.map_cons, List.map_map]
  congr 1
  refine List.map_congr_left (fun i _ => ?_)
  simp only [Function.comp]
  have h1 : t + (i + 1) = t + 1 + i := by omega
  rw [h1]

lemma fcfsStep_of_idle {u : Scheduler}
    (hrun : u.current_running_process = none)
    (hadd : (addArrivals u).ready_queue = []) :
    fcfsStep u = addArrivals (idleTick u) := by
  have hAu : addArrivals u = u := addArrivals_eq_self hadd
  have hready : u.ready_queue = [] := by
    have h : u.ready_queue ++ _ = [] := hadd
    exact (List.append_eq_nil.mp h).1
  have hDu : dispatchStep u = u := dispatchStep_none_nil u hrun hready
  unfold fcfsStep
  rw [hAu, hDu, fcfsExec_of_none _ hrun]

lemma stretch_loop : ∀ (d : Nat) (u : Scheduler) (N : Nat) (f : Scheduler),
    1 ≤ d →
    u.current_running_process = none →
    (addArrivals u).ready_queue = [] →
    nextArrival u = some (u.current_time + d) →
    u.completed_count < u.all_processes.length →
    fcfsLoop N u = some f →
    ∃ M, N = M + d ∧
      fcfsLoop M (withG (addArrivals (idleJump (u.current_time + d) u))
        (u.gantt_chart ++ unitIdles u.current_time d)) = some f := by
  intro d
  induction d with
  | zero => intro u N f h1; omega
  | succ k ih =>
      intro u N f _ hrun hadd hnext hnd hf
      have hready : u.ready_queue = [] := by
        have h : u.ready_queue ++ _ = [] := hadd
        exact (List.append_eq_nil.mp h).1
      have hstep : fcfsStep u = addArrivals (idleTick u) := fcfsStep_of_idle hrun hadd
      obtain ⟨m, rfl, hf'⟩ : ∃ m, N = m + 1 ∧ fcfsLoop m (fcfsStep u) = some f := by
        cases N with
        | zero =>
            unfold fcfsLoop at hf
            rw [if_pos hnd] at hf
            cases hf
        | succ m =>
            unfold fcfsLoop at hf
            rw [if_pos hnd] at hf
            exact ⟨m, rfl, hf⟩
      by_cases hk : k = 0
      · subst hk
        refine ⟨m, by omega, ?_⟩
        have hjump : idleJump (u.current_time + 1) u = idleTick u := by
          refine schedExt rfl rfl rfl ?_ rfl ?_ rfl
          · show u.cpu_idle_time + (u.current_time + 1 - u.current_time) =
              u.cpu_idle_time + 1
            omega
          · rfl
        have heq : withG (addArrivals (idleJump (u.current_time + 1) u))
            (u.gantt_chart ++ unitIdles u.current_time 1) = addArrivals (idleTick u) := by
          rw [hjump, unitIdles_one]
          have hg : (addArrivals (idleTick u)).gantt_chart =
              u.gantt_chart ++ [(0, u.current_time, u.current_time + 1)] := rfl
          rw [← hg, withG_self]
        rw [heq, ← hstep]
        exact hf'
      · have hk1 : 1 ≤ k := by omega
        have hlb2 : ∀ p ∈ u.all_processes, 0 < p.remaining_burst_time →
            u.current_time + 1 < p.arrival_time := by
          intro p hp hrem
          have h1 := no_admissible_spec hadd hrun p hp hrem
          have h2 := nextArrival_lb hnext p hp hrem h1
          omega
        have hfilt := idleTick_filter_empty (u := u) hlb2
        have haddt : addArrivals (idleTick u) = idleTick u :=
          addArrivals_eq_self_of_filter_empty (by simpa using hready) hfilt
        have hstep2 : fcfsStep u = idleTick u := by rw [hstep, haddt]
        have hcong : nextArrival (idleTick u) = nextArrival u := by
          refine nextArrival_congr rfl ?_
          intro p hp
          by_cases hrem : 0 < p.remaining_burst_time
          · have harr := hlb2 p (by simpa using hp) hrem
            have e1 : decide ((idleTick u).current_time < p.arrival_time) = true := by
              simp only [idleTick_time, decide_eq_true_eq]
              omega
            have e2 : decide (u.current_time < p.arrival_time) = true := by
              simp only [decide_eq_true_eq]
              omega
            rw [e1, e2]
          · have e : decide (0 < p.remaining_burst_time) = false := by
              simp only [decide_eq_false_iff_not]
              omega
            rw [e, Bool.false_and, Bool.false_and]
        have hnext2 : nextArrival (idleTick u) = some ((idleTick u).current_time + k) := by
          rw [hcong, hnext]
          congr 1
          simp only [idleTick_time]
          omega
        have hnd2 : (idleTick u).completed_count < (idleTick u).all_processes.length := by
          simpa using hnd
        have hadd2 : (addArrivals (idleTick u)).ready_queue = [] := by
          rw [haddt]
          simpa using hready
        have hrun2 : (idleTick u).current_running_process = none := by
          simpa using hrun
        rw [hstep2] at hf'
        obtain ⟨M, hm, hloop⟩ := ih (idleTick u) m f hk1 hrun2 hadd2 hnext2 hnd2 hf'
        refine ⟨M, by omega, ?_⟩
        have hneq : (idleTick u).current_time + k = u.current_time + (k + 1) := by
          simp only [idleTick_time]
          omega
        rw [hneq] at hloop
        have hstateeq :
            withG (addArrivals (idleJump (u.current_time + (k + 1)) (idleTick u)))
              ((idleTick u).gantt_chart ++ unitIdles (idleTick u).current_time k)
            = withG (addArrivals (idleJump (u.current_time + (k + 1)) u))
              (u.gantt_chart ++ unitIdles u.current_time (k + 1)) := by
          refine schedExt ?_ rfl rfl ?_ rfl ?_ rfl
          · -- ready queues agree
            show (addArrivals (idleJump (u.current_time + (k + 1)) (idleTick u))).ready_queue
              = (addArrivals (idleJump (u.current_time + (k + 1)) u)).ready_queue
            exact addArrivals_ready_congr rfl rfl rfl rfl
          · -- idle accumulators agree
            show (idleTick u).cpu_idle_time +
                (u.current_time + (k + 1) - (idleTick u).current_time)
              = u.cpu_idle_time + (u.current_time + (k + 1) - u.current_time)
            simp only [idleTick_idle, idleTick_time]
            omega
          · -- traces agree
            show (idleTick u).gantt_chart ++ unitIdles (idleTick u).current_time k
              = u.gantt_chart ++ unitIdles u.current_time (k + 1)
            simp only [idleTick_gantt, idleTick_time, unitIdles_succ]
            rw [List.append_assoc]
            rfl
        rw [hstateeq] at hloop
        exact hloop

lemma fcfsJumpStep_of_jump {s' : Scheduler} {n : Nat}
    (hrun : s'.current_running_process = none)
    (hadd : (addArrivals s').ready_queue = [])
    (hnext : nextArrival s' = some n) :
    fcfsJumpStep s' = addArrivals (idleJump n s') := by
  have hAu : addArrivals s' = s' := addArrivals_eq_self hadd
  have hready : s'.ready_queue = [] := by
    have h : s'.ready_queue ++ _ = [] := hadd
    exact (List.append_eq_nil.mp h).1
  have hDu : dispatchStep s' = s' := dispatchStep_none_nil s' hrun hready
  unfold fcfsJumpStep
  rw [hAu, hDu, fcfsJumpExec_of_none_some _ n hrun hnext]

lemma fcfsLoop_of_not_lt {N : Nat} {s : Scheduler}
    (h : ¬ s.completed_count < s.all_processes.length) : fcfsLoop N s = some s := by
  cases N with
  | zero => unfold fcfsLoop; rw [if_neg h]
  | succ n => unfold fcfsLoop; rw [if_neg h]

lemma fcfsJumpLoop_of_not_lt {N : Nat} {s : Scheduler}
    (h : ¬ s.completed_count < s.all_processes.length) : fcfsJumpLoop N s = some s := by
  cases N with
  | zero => unfold fcfsJumpLoop; rw [if_neg h]
  | succ n => unfold fcfsJumpLoop; rw [if_neg h]

lemma fcfsJumpLoop_mono : ∀ (M N : Nat) (s f : Scheduler), M ≤ N →
    fcfsJumpLoop M s = some f → fcfsJumpLoop N s = some f := by
  intro M
  induction M with
  | zero =>
      intro N s f _ hf
      unfold fcfsJumpLoop at hf
      split at hf
      · cases hf
      · next h =>
        cases hf
        exact fcfsJumpLoop_of_not_lt h
  | succ m ih =>
      intro N s f hle hf
      unfold fcfsJumpLoop at hf
      split at hf
      · next h =>
        cases N with
        | zero => omega
        | succ n =>
            unfold fcfsJumpLoop
            rw [if_pos h]
            exact ih n _ f (by omega) hf
      · next h =>
        cases hf
        exact fcfsJumpLoop_of_not_lt h

lemma expandIdle_singleton (e : Nat × Nat × Nat) : expandIdle [e] = expandI e := by
  unfold expandIdle
  rw [List.map_singleton]
  exact List.flatten_singleton ..

lemma fcfs_jump_sim : ∀ (N : Nat) (s' f : Scheduler),
    fcfsLoop N (withG s' (expandIdle s'.gantt_chart)) = some f →
    ∃ f', fcfsJumpLoop N s' = some f' ∧ f = withG f' (expandIdle f'.gantt_chart) := by
  intro N
  induction N using Nat.strong_induction_on with
  | _ N ih =>
    intro s' f hf
    by_cases hdone : s'.completed_count < s'.all_processes.length
    · -- still running
      have hdoneW : (withG s' (expandIdle s'.gantt_chart)).completed_count <
          (withG s' (expandIdle s'.gantt_chart)).all_processes.length := hdone
      obtain ⟨m, rfl⟩ : ∃ m, N = m + 1 := by
        cases N with
        | zero =>
            exfalso
            unfold fcfsLoop at hf
            rw [if_pos hdoneW] at hf
            cases hf
        | succ m => exact ⟨m, rfl⟩
      have hf' : fcfsLoop m (fcfsStep (withG s' (expandIdle s'.gantt_chart))) = some f := by
        unfold fcfsLoop at hf
        rw [if_pos hdoneW] at hf
        exact hf
      have hstepG : fcfsStep (withG s' (expandIdle s'.gantt_chart)) =
          withG (fcfsStep s') (expandIdle (fcfsStep s').gantt_chart) := by
        rw [fcfsStep_withG, fcfsStep_gantt, expandIdle_append, expandIdle_execTail]
      cases hrx : (dispatchStep (addArrivals s')).current_running_process with
      | some pid =>
          have hjs : fcfsJumpStep s' = fcfsStep s' := by
            unfold fcfsJumpStep fcfsStep
            rw [fcfsJumpExec_of_some _ pid hrx]
          rw [hstepG] at hf'
          obtain ⟨f', hjl, hrel⟩ := ih m (by omega) (fcfsStep s') f hf'
          refine ⟨f', ?_, hrel⟩
          unfold fcfsJumpLoop
          rw [if_pos hdone, hjs]
          exact hjl
      | none =>
          obtain ⟨hrunA, hreadyA, hDeq⟩ := dispatch_running_none_inv hrx
          have hrun' : s'.current_running_process = none := by simpa using hrunA
          cases hna : nextArrival s' with
          | none =>
              have hAs : addArrivals s' = s' := addArrivals_eq_self hreadyA
              have hjs : fcfsJumpStep s' = fcfsStep s' := by
                unfold fcfsJumpStep fcfsStep
                rw [hDeq, hAs]
                rw [fcfsJumpExec_of_none_none _ hrun' hna, fcfsExec_of_none _ hrun']
              rw [hstepG] at hf'
              obtain ⟨f', hjl, hrel⟩ := ih m (by omega) (fcfsStep s') f hf'
              refine ⟨f', ?_, hrel⟩
              unfold fcfsJumpLoop
              rw [if_pos hdone, hjs]
              exact hjl
          | some n =>
              -- the genuine idle stretch
              have htn : s'.current_time < n := nextArrival_gt hna
              obtain ⟨d, hd1, hnd⟩ : ∃ d, 1 ≤ d ∧ n = s'.current_time + d :=
                ⟨n - s'.current_time, by omega, by omega⟩
              have hrunG : (withG s' (expandIdle s'.gantt_chart)).current_running_process
                  = none := hrun'
              have haddG : (addArrivals (withG s'
                  (expandIdle s'.gantt_chart))).ready_queue = [] := hreadyA
              have hnextG : nextArrival (withG s' (expandIdle s'.gantt_chart)) =
                  some ((withG s' (expandIdle s'.gantt_chart)).current_time + d) := by
                show nextArrival s' = some (s'.current_time + d)
                rw [hna, hnd]
              have hdoneG : (withG s' (expandIdle s'.gantt_chart)).completed_count <
                  (withG s' (expandIdle s'.gantt_chart)).all_processes.length := hdone
              obtain ⟨M, hNM, hloopM⟩ := stretch_loop d
                (withG s' (expandIdle s'.gantt_chart)) (m + 1) f hd1 hrunG haddG
                hnextG hdoneG hf
              -- rewrite the stretch target state into jump form
              have hT : withG (addArrivals (idleJump
                    ((withG s' (expandIdle s'.gantt_chart)).current_time + d)
                    (withG s' (expandIdle s'.gantt_chart))))
                  ((withG s' (expandIdle s'.gantt_chart)).gantt_chart ++
                    unitIdles (withG s' (expandIdle s'.gantt_chart)).current_time d)
                  = withG (fcfsJumpStep s')
                    (expandIdle (fcfsJumpStep s').gantt_chart) := by
                have hjs : fcfsJumpStep s' = addArrivals (idleJump n s') :=
                  fcfsJumpStep_of_jump hrun' hreadyA hna
                have h1 : idleJump n (withG s' (expandIdle s'.gantt_chart)) =
                    withG (idleJump n s')
                      (expandIdle s'.gantt_chart ++ [(0, s'.current_time, n)]) :=
                  idleJump_withG n s' _
                rw [hjs]
                show withG (addArrivals (idleJump (s'.current_time + d)
                    (withG s' (expandIdle s'.gantt_chart))))
                    (expandIdle s'.gantt_chart ++ unitIdles s'.current_time d) = _
                rw [← hnd, h1, addArrivals_withG]
                have hww : withG (withG (addArrivals (idleJump n s'))
                      (expandIdle s'.gantt_chart ++ [(0, s'.current_time, n)]))
                    (expandIdle s'.gantt_chart ++ unitIdles s'.current_time d)
                    = withG (addArrivals (idleJump n s'))
                      (expandIdle s'.gantt_chart ++ unitIdles s'.current_time d) := rfl
                rw [hww]
                have hgj : (addArrivals (idleJump n s')).gantt_chart =
                    s'.gantt_chart ++ [(0, s'.current_time, n)] := rfl
                rw [hgj, expandIdle_append, expandIdle_singleton, expandI_idle_interval]
                have hdn : n - s'.current_time = d := by omega
                rw [hdn]
              rw [hT] at hloopM
              obtain ⟨f', hjl, hrel⟩ := ih M (by omega) (fcfsJumpStep s') f hloopM
              refine ⟨f', ?_, hrel⟩
              unfold fcfsJumpLoop
              rw [if_pos hdone]
              exact fcfsJumpLoop_mono M m _ f' (by omega) hjl
    · -- every process already completed: both loops return immediately
      have hG : fcfsLoop N (withG s' (expandIdle s'.gantt_chart)) =
          some (withG s' (expandIdle s'.gantt_chart)) :=
        fcfsLoop_of_not_lt hdone
      rw [hG] at hf
      obtain rfl : withG s' (expandIdle s'.gantt_chart) = f := Option.some.inj hf
      exact ⟨s', fcfsJumpLoop_of_not_lt hdone, rfl⟩

/-- C5 counterexample: on the registered set {P1(arrival 0, burst 1),
P2(arrival 3, burst 1)} the tick-by-tick FCFS run and the direct-jump FCFS
run return the same idle total (2) but different traces — the tick form
records the idle gap as two single-tick intervals, the jump form as the
single interval (idle, 1, 3) — so the two idle advancements do not produce
an identical trace. -/
theorem c5_identical_trace_counterexample :
    (run_fcfs gapEngine).map (fun f => f.gantt_chart) =
      some [(1, 0, 1), (0, 1, 2), (0, 2, 3), (2, 3, 4)] ∧
    (run_fcfs_jump gapEngine).map (fun f => f.gantt_chart) =
      some [(1, 0, 1), (0, 1, 3), (2, 3, 4)] ∧
    (run_fcfs gapEngine).map (fun f => f.gantt_chart) ≠
      (run_fcfs_jump gapEngine).map (fun f => f.gantt_chart) ∧
    (run_fcfs gapEngine).map (fun f => f.cpu_idle_time) =
      (run_fcfs_jump gapEngine).map (fun f => f.cpu_idle_time) := by
  have h1 : (run_fcfs gapEngine).map (fun f => f.gantt_chart) =
      some [(1, 0, 1), (0, 1, 2), (0, 2, 3), (2, 3, 4)] := rfl
  have h2 : (run_fcfs_jump gapEngine).map (fun f => f.gantt_chart) =
      some [(1, 0, 1), (0, 1, 3), (2, 3, 4)] := rfl
  have h3 : (run_fcfs gapEngine).map (fun f => f.cpu_idle_time) = some 2 := rfl
  have h4 : (run_fcfs_jump gapEngine).map (fun f => f.cpu_idle_time) = some 2 := rfl
  refine ⟨h1, h2, ?_, ?_⟩
  · rw [h1, h2]
    decide
  · rw [h3, h4]

/-- C5 (amended): for every registered process set, the tick-by-tick FCFS
run and the direct-jump FCFS run return states that agree on every
component — clock, idle total, ready queue, process records, occupant,
completed counter — and whose traces are identical up to splitting each
idle interval into single ticks (the tick form's trace is exactly the
single-tick expansion of the jump form's trace). -/
theorem c5_idle_advancement_equiv (s : Scheduler) :
    ∀ f f', run_fcfs s = some f → run_fcfs_jump s = some f' →
      f.ready_queue = f'.ready_queue ∧
      f.all_processes = f'.all_processes ∧
      f.current_time = f'.current_time ∧
      f.cpu_idle_time = f'.cpu_idle_time ∧
      f.current_running_process = f'.current_running_process ∧
      f.completed_count = f'.completed_count ∧
      f.gantt_chart = expandIdle f'.gantt_chart := by
  intro f f' hf hf'
  have h0 : withG (resetForRun s) (expandIdle (resetForRun s).gantt_chart) =
      resetForRun s := rfl
  have hsim := fcfs_jump_sim (fuelBound s) (resetForRun s) f (by rw [h0]; exact hf)
  obtain ⟨f0, hj, hrel⟩ := hsim
  have hff : f0 = f' := by
    have : some f0 = some f' := by rw [← hj, ← hf']; rfl
    exact Option.some.inj this
  subst hff
  rw [hrel]
  exact ⟨rfl, rfl, rfl, rfl, rfl, rfl, rfl⟩

/-- Witness for C5's amended equivalence at the concrete idle-gap engine. -/
theorem c5_idle_advancement_equiv_witness :
    ∃ f f', run_fcfs gapEngine = some f ∧ run_fcfs_jump gapEngine = some f' ∧
      f.current_time = f'.current_time ∧ f.cpu_idle_time = f'.cpu_idle_time ∧
      f.gantt_chart = expandIdle f'.gantt_chart :=
  ⟨_, _, rfl, rfl,
    (c5_idle_advancement_equiv gapEngine _ _ rfl rfl).2.2.1,
    (c5_idle_advancement_equiv gapEngine _ _ rfl rfl).2.2.2.1,
    (c5_idle_advancement_equiv gapEngine _ _ rfl rfl).2.2.2.2.2.2⟩
